import Mathlib

/-!
Shallow embedding of the MedDSL-Lite core (`mddsl/dsl_parser.py` and
`mddsl/interpreter.py`) and proofs about it.

Python values (the YAML/JSON documents, case records, and every dynamically
typed value the interpreter passes around) are modelled by the inductive
type `J`.  Python `float` is modelled as an exact rational: no claim under
verification depends on binary floating point rounding, and the spec fixes
comparisons to be exact.  Host exceptions are modelled by explicit error
values; wall-clock timestamps (`datetime.now().isoformat()`) are modelled
by an oracle `ts : Nat → String` giving the string produced by the n-th
call of the running execution.
-/

set_option maxHeartbeats 2000000

deriving instance DecidableEq for Except

namespace MedDSL

/-- A Python value as used by the interpreter: `None`, `bool`, `int`,
`float` (as an exact rational), `str`, `list`, `dict`. -/
inductive J where
  | null : J
  | bool (b : Bool) : J
  | int (n : Int) : J
  | real (q : ℚ) : J
  | str (s : String) : J
  | list (xs : List J) : J
  | obj (kvs : List (String × J)) : J
  deriving Repr

/-- Member-wise induction principle for `J` (the auto-generated recursor of
the nested inductive is awkward to use directly). -/
theorem J.inductOn (motive : J → Prop)
    (hnull : motive .null) (hbool : ∀ b, motive (.bool b))
    (hint : ∀ n, motive (.int n)) (hreal : ∀ q, motive (.real q))
    (hstr : ∀ s, motive (.str s))
    (hlist : ∀ xs, (∀ x ∈ xs, motive x) → motive (.list xs))
    (hobj : ∀ kvs, (∀ kv ∈ kvs, motive kv.2) → motive (.obj kvs)) :
    ∀ j, motive j := fun j =>
  match j with
  | .null => hnull
  | .bool b => hbool b
  | .int n => hint n
  | .real q => hreal q
  | .str s => hstr s
  | .list xs => hlist xs (fun x hx =>
      J.inductOn motive hnull hbool hint hreal hstr hlist hobj x)
  | .obj kvs => hobj kvs (fun kv hkv =>
      J.inductOn motive hnull hbool hint hreal hstr hlist hobj kv.2)
termination_by j => sizeOf j
decreasing_by
  all_goals simp_all
  · have := List.sizeOf_lt_of_mem hx
    omega
  · have h1 := List.sizeOf_lt_of_mem hkv
    have h2 : sizeOf kv.2 < sizeOf kv := by
      obtain ⟨k, v⟩ := kv
      simp
    omega

mutual

/-- Structural equality test on `J`, the basis of its `DecidableEq`
instance. -/
def J.beq : J → J → Bool
  | .null, .null => true
  | .bool a, .bool b => a == b
  | .int a, .int b => a == b
  | .real a, .real b => a == b
  | .str a, .str b => a == b
  | .list xs, .list ys => J.beqL xs ys
  | .obj kvs, .obj kvs' => J.beqO kvs kvs'
  | _, _ => false

def J.beqL : List J → List J → Bool
  | [], [] => true
  | x :: xs, y :: ys => J.beq x y && J.beqL xs ys
  | _, _ => false

def J.beqO : List (String × J) → List (String × J) → Bool
  | [], [] => true
  | (k, v) :: kvs, (k', v') :: kvs' => k == k' && J.beq v v' && J.beqO kvs kvs'
  | _, _ => false

end

theorem J.beq_iff : ∀ a b, J.beq a b = true ↔ a = b := by
  intro a
  induction a using J.inductOn with
  | hnull => intro b; cases b <;> simp [J.beq]
  | hbool a => intro b; cases b <;> simp [J.beq]
  | hint a => intro b; cases b <;> simp [J.beq]
  | hreal a => intro b; cases b <;> simp [J.beq]
  | hstr a => intro b; cases b <;> simp [J.beq]
  | hlist xs ih =>
    intro b
    cases b with
    | list ys =>
      simp only [J.beq, J.list.injEq]
      induction xs generalizing ys with
      | nil => cases ys <;> simp [J.beqL]
      | cons x xs tl_ih =>
        cases ys with
        | nil => simp [J.beqL]
        | cons y ys =>
          have hx := ih x (by simp)
          have htl := tl_ih (fun z hz => ih z (by simp [hz])) ys
          simp [J.beqL, hx y, htl]
    | null | bool | int | real | str | obj => simp [J.beq]
  | hobj kvs ih =>
    intro b
    cases b with
    | obj kvs' =>
      simp only [J.beq, J.obj.injEq]
      induction kvs generalizing kvs' with
      | nil => cases kvs' <;> simp [J.beqO]
      | cons kv tl tl_ih =>
        cases kvs' with
        | nil => obtain ⟨k, v⟩ := kv; simp [J.beqO]
        | cons kv' tl' =>
          obtain ⟨k, v⟩ := kv
          obtain ⟨k', v'⟩ := kv'
          have hv := ih (k, v) (by simp)
          have htl := tl_ih (fun z hz => ih z (by simp [hz])) tl'
          simp [J.beqO, hv v', htl, Prod.ext_iff]
    | null | bool | int | real | str | list => simp [J.beq]

instance : DecidableEq J := fun a b =>
  decidable_of_iff (J.beq a b = true) (J.beq_iff a b)

/-- Python truthiness, `bool(v)`. -/
def pyTruthy : J → Bool
  | .null => false
  | .bool b => b
  | .int n => n != 0
  | .real q => q != 0
  | .str s => s != ""
  | .list xs => !xs.isEmpty
  | .obj kvs => !kvs.isEmpty

/-- Numeric view of a value: Python's `bool` is a subtype of `int`, and
`int`/`float` compare numerically with each other. -/
def asNum : J → Option ℚ
  | .bool b => some (if b then 1 else 0)
  | .int n => some (n : ℚ)
  | .real q => some q
  | _ => none

/-- First-match lookup in an association list (a Python `dict` read). -/
def lookupStr : List (String × J) → String → Option J
  | [], _ => none
  | (k, v) :: rest, key => if k == key then some v else lookupStr rest key

mutual

/-- Python `==` on values (never raises): numbers (including `bool`)
compare numerically, strings directly, lists pointwise, dicts by key
lookup; mixed kinds compare unequal. -/
def pyEq : J → J → Bool
  | .null, .null => true
  | .str s, .str t => s == t
  | .list xs, .list ys => pyEqL xs ys
  | .str _, _ => false
  | _, .str _ => false
  | .list _, _ => false
  | _, .list _ => false
  | .obj kvs, .obj kvs' => kvs.length == kvs'.length && pyEqO kvs kvs'
  | .obj _, _ => false
  | _, .obj _ => false
  | a, b =>
      match asNum a, asNum b with
      | some x, some y => x == y
      | _, _ => false

def pyEqL : List J → List J → Bool
  | [], [] => true
  | x :: xs, y :: ys => pyEq x y && pyEqL xs ys
  | _, _ => false

/-- Every key of the first dict maps (at its first occurrence in the
second dict) to an equal value. -/
def pyEqO : List (String × J) → List (String × J) → Bool
  | [], _ => true
  | (k, v) :: rest, kvs' =>
      (match lookupStr kvs' k with
       | some v' => pyEq v v'
       | none => false) && pyEqO rest kvs'

end

/-- Code-point comparison of characters (Python string ordering). -/
def cmpChars : List Char → List Char → Ordering
  | [], [] => .eq
  | [], _ :: _ => .lt
  | _ :: _, [] => .gt
  | c :: cs, d :: ds =>
      if c.toNat < d.toNat then .lt
      else if d.toNat < c.toNat then .gt
      else cmpChars cs ds

mutual

/-- Python ordering comparison of two values: `some o` when the host can
order them, `none` when the host raises `TypeError` (mixed kinds, dicts,
`None`, ...).  Strings order by code point, numbers numerically, lists
lexicographically (using `==` to skip equal heads, as CPython does). -/
def pyCompare : J → J → Option Ordering
  | .str s, .str t => some (cmpChars s.data t.data)
  | .list xs, .list ys => pyCompareL xs ys
  | .str _, _ => none
  | _, .str _ => none
  | .list _, _ => none
  | _, .list _ => none
  | a, b =>
      match asNum a, asNum b with
      | some x, some y => some (compareOfLessAndEq x y)
      | _, _ => none

def pyCompareL : List J → List J → Option Ordering
  | [], [] => some .eq
  | [], _ :: _ => some .lt
  | _ :: _, [] => some .gt
  | x :: xs, y :: ys =>
      if pyEq x y then pyCompareL xs ys else pyCompare x y

end

/-- `str()`-style rendering used when Python f-strings interpolate a value
into an error message. -/
def pyFormat : J → String
  | .null => "None"
  | .bool b => if b then "True" else "False"
  | .int n => toString n
  | .real q => toString q
  | .str s => s
  | .list _ => "[...]"
  | .obj _ => "\x7b...\x7d"

/-- `d.get(key)` on a value known to be a dict. -/
def dictGet : J → String → Option J
  | .obj kvs, k => lookupStr kvs k
  | _, _ => none

/-- Whether a value may be a member of a Python `set` (hashable). -/
def pyHashable : J → Bool
  | .list _ => false
  | .obj _ => false
  | _ => true

/-- Membership test used for the `visited` / `node_ids` sets (Python `in`,
which compares with `==`). -/
def pyMem (v : J) : List J → Bool
  | [] => false
  | x :: xs => pyEq v x || pyMem v xs

/-- Contiguous-sublist test on characters, for Python's substring `in`. -/
def strContainsSub (needle : List Char) : List Char → Bool
  | [] => needle.isEmpty
  | c :: rest => needle.isPrefixOf (c :: rest) || strContainsSub needle rest

/-- Python `key in container` for the container shapes the interpreter can
meet: dict (key test), string (substring test), list (`==` scan); any other
shape raises `TypeError` (`none`). -/
def pyContains (container : J) (key : String) : Option Bool :=
  match container with
  | .obj kvs => some (kvs.any (fun kv => kv.1 == key))
  | .str s => some (strContainsSub key.data s.data)
  | .list xs => some (pyMem (.str key) xs)
  | _ => none

end MedDSL

namespace MedDSL

/-! ## The boolean expression language (`mddsl/dsl_parser.py`) -/

/-- Token kinds of the expression lexer (`TokenType` enum). -/
inductive TokenType where
  | tTrue | tFalse | tNull | number | identifier
  | tAnd | tOr | tNot
  | eq | ne | ge | gt | le | lt
  | lparen | rparen | dot | eof
  deriving DecidableEq, Repr

/-- The `.value` string of each `TokenType` enum member (used in error
messages). -/
def TokenType.valueStr : TokenType -> String
  | .tTrue => "true"
  | .tFalse => "false"
  | .tNull => "null"
  | .number => "number"
  | .identifier => "identifier"
  | .tAnd => "and"
  | .tOr => "or"
  | .tNot => "not"
  | .eq => "=="
  | .ne => "!="
  | .ge => ">="
  | .gt => ">"
  | .le => "<="
  | .lt => "<"
  | .lparen => "("
  | .rparen => ")"
  | .dot => "."
  | .eof => "eof"

/-- A lexer token.  The source also records a source offset, which is
carried by `ParseError` objects but never influences behaviour or any
message string; it is omitted here. -/
structure Token where
  type : TokenType
  value : J := J.null
  deriving DecidableEq, Repr

/-- `Tokenizer.parse_comparison`: greedy two-character operators first,
then `>` and `<`; a lone `=` or `!` is an error. -/
def parseComparison : List Char -> Except String (Token × List Char)
  | '=' :: '=' :: rest => .ok ({ type := .eq }, rest)
  | '!' :: '=' :: rest => .ok ({ type := .ne }, rest)
  | '>' :: '=' :: rest => .ok ({ type := .ge }, rest)
  | '<' :: '=' :: rest => .ok ({ type := .le }, rest)
  | '>' :: rest => .ok ({ type := .gt }, rest)
  | '<' :: rest => .ok ({ type := .lt }, rest)
  | c :: _ => .error ("Invalid operator starting with " ++ c.toString)
  | [] => .error "Invalid operator"

/-- Keyword check of `Tokenizer.parse_identifier` after the identifier
characters have been scanned. -/
def identToken (value : String) : Token :=
  if value == "true" then { type := .tTrue, value := .bool true }
  else if value == "false" then { type := .tFalse, value := .bool false }
  else if value == "null" then { type := .tNull, value := .null }
  else if value == "and" then { type := .tAnd }
  else if value == "or" then { type := .tOr }
  else if value == "not" then { type := .tNot }
  else { type := .identifier, value := .str value }

/-- `Tokenizer.parse_identifier`: scan `[A-Za-z0-9_]*` (the caller
guarantees the first character is alphabetic). -/
def parseIdentifier (cs : List Char) : Token × List Char :=
  let run := cs.takeWhile (fun c => c.isAlphanum || c == '_')
  let rest := cs.dropWhile (fun c => c.isAlphanum || c == '_')
  (identToken (String.mk run), rest)

/-- Numeric value of a digit run. -/
def digitsToNat (ds : List Char) : Nat :=
  ds.foldl (fun acc c => acc * 10 + (c.toNat - 48)) 0

/-- `Tokenizer.parse_number`: scan a run of digits and dots; no dot gives
`int(value)`, exactly one dot gives `float(value)` (a trailing dot is
legal, as in Python), more than one dot is `ValueError` and becomes
`ParseError "Invalid number: ..."`. -/
def parseNumber (cs : List Char) : Except String (Token × List Char) :=
  let run := cs.takeWhile (fun c => c.isDigit || c == '.')
  let rest := cs.dropWhile (fun c => c.isDigit || c == '.')
  let dots := run.count '.'
  if dots == 0 then
    .ok ({ type := .number, value := .int (digitsToNat run) }, rest)
  else if dots == 1 then
    let intPart := run.takeWhile (fun c => c != '.')
    let fracPart := (run.dropWhile (fun c => c != '.')).drop 1
    let den : Nat := 10 ^ fracPart.length
    .ok ({ type := .number,
           value := .real (mkRat (digitsToNat intPart * den + digitsToNat fracPart) den) },
         rest)
  else
    .error ("Invalid number: " ++ String.mk run)

/-- `Tokenizer.next_token`. -/
def nextToken : List Char -> Except String (Token × List Char)
  | [] => .error "Unexpected end of input"
  | c :: rest =>
      if c == '(' then .ok ({ type := .lparen }, rest)
      else if c == ')' then .ok ({ type := .rparen }, rest)
      else if c == '.' then .ok ({ type := .dot }, rest)
      else if c == '=' || c == '!' || c == '>' || c == '<' then
        parseComparison (c :: rest)
      else if c.isAlpha then .ok (parseIdentifier (c :: rest))
      else if c.isDigit then parseNumber (c :: rest)
      else .error ("Unexpected character: " ++ c.toString)

/-- `Tokenizer.tokenize`: skip whitespace, scan tokens, append `EOF`.  The
fuel starts at one more than the character count; every loop iteration
consumes at least one character, so it never runs out. -/
def tokenizeGo : Nat -> List Char -> List Token -> Except String (List Token)
  | 0, _, _ => .error "tokenizer fuel exhausted"
  | fuel + 1, cs, acc =>
      let cs := cs.dropWhile Char.isWhitespace
      match cs with
      | [] => .ok (acc ++ [{ type := .eof }])
      | cs => do
          let (tok, rest) <- nextToken cs
          tokenizeGo fuel rest (acc ++ [tok])

def tokenize (text : String) : Except String (List Token) :=
  tokenizeGo (text.data.length + 1) text.data []

/-- Expression AST (`ASTNode` class hierarchy). -/
inductive ASTNode where
  | booleanNode (b : Bool)
  | nullNode
  | numberNode (v : J)
  | fieldNode (path : String)
  | notNode (e : ASTNode)
  | andNode (l r : ASTNode)
  | orNode (l r : ASTNode)
  | comparisonNode (l : ASTNode) (op : TokenType) (r : ASTNode)
  deriving DecidableEq, Repr

/-- `Parser.get_precedence`. -/
def getPrecedence : TokenType -> Nat
  | .tOr => 1
  | .tAnd => 2
  | .eq | .ne | .ge | .gt | .le | .lt => 3
  | .tNot => 4
  | _ => 0

/-- Parser state: the token list and a cursor.  `advance` stops at the
last token (the trailing `EOF`), as in the source. -/
structure PS where
  toks : List Token
  pos : Nat
  deriving Repr

def PS.current (ps : PS) : Token :=
  ps.toks.getD ps.pos { type := .eof }

def PS.advance (ps : PS) : PS :=
  if ps.pos < ps.toks.length - 1 then { ps with pos := ps.pos + 1 } else ps

/-- `Parser.expect`. -/
def PS.expect (ps : PS) (t : TokenType) : Except String PS :=
  if ps.current.type == t then .ok ps.advance
  else .error ("Expected " ++ t.valueStr ++ ", got " ++ ps.current.type.valueStr)

mutual

/-- `Parser.parse_expression` (fuelled; the fuel chosen by `parse` is
ample for any token list). -/
def parseExpressionF : Nat -> Nat -> PS -> Except String (ASTNode × PS)
  | 0, _, _ => .error "parser fuel exhausted"
  | fuel + 1, prec, ps => do
      let (left, ps) <- parsePrefixF fuel ps
      parseLoopF fuel prec left ps

/-- The `while precedence < get_precedence(current)` loop of
`parse_expression`. -/
def parseLoopF : Nat -> Nat -> ASTNode -> PS -> Except String (ASTNode × PS)
  | 0, _, _, _ => .error "parser fuel exhausted"
  | fuel + 1, prec, left, ps =>
      if prec < getPrecedence ps.current.type then do
        let (left', ps') <- parseInfixF fuel left ps.current.type ps
        parseLoopF fuel prec left' ps'
      else .ok (left, ps)

/-- `Parser.parse_prefix`. -/
def parsePrefixF : Nat -> PS -> Except String (ASTNode × PS)
  | 0, _ => .error "parser fuel exhausted"
  | fuel + 1, ps =>
      let tok := ps.current
      match tok.type with
      | .tTrue => .ok (.booleanNode true, ps.advance)
      | .tFalse => .ok (.booleanNode false, ps.advance)
      | .tNull => .ok (.nullNode, ps.advance)
      | .number => .ok (.numberNode tok.value, ps.advance)
      | .identifier =>
          .ok (.fieldNode (match tok.value with | .str s => s | _ => ""), ps.advance)
      | .tNot => do
          let (e, ps') <- parseExpressionF fuel (getPrecedence .tNot) ps.advance
          .ok (.notNode e, ps')
      | .lparen => do
          let (e, ps') <- parseExpressionF fuel 0 ps.advance
          let ps'' <- ps'.expect .rparen
          .ok (e, ps'')
      | t => .error ("Unexpected token: " ++ t.valueStr)

/-- `Parser.parse_infix`. -/
def parseInfixF : Nat -> ASTNode -> TokenType -> PS -> Except String (ASTNode × PS)
  | 0, _, _, _ => .error "parser fuel exhausted"
  | fuel + 1, left, tt, ps =>
      if tt == .eq || tt == .ne || tt == .ge || tt == .gt || tt == .le || tt == .lt then do
        let (right, ps') <- parseExpressionF fuel (getPrecedence tt) ps.advance
        .ok (.comparisonNode left tt right, ps')
      else if tt == .tAnd then do
        let (right, ps') <- parseExpressionF fuel (getPrecedence .tAnd) ps.advance
        .ok (.andNode left right, ps')
      else if tt == .tOr then do
        let (right, ps') <- parseExpressionF fuel (getPrecedence .tOr) ps.advance
        .ok (.orNode left right, ps')
      else .error ("Unexpected infix operator: " ++ tt.valueStr)

end

/-- Top-level `parse`: tokenize, parse one expression, reject trailing
tokens. -/
def parse (expr : String) : Except String ASTNode := do
  let toks <- tokenize expr
  let ps : PS := { toks := toks, pos := 0 }
  let (ast, ps') <- parseExpressionF (2 * toks.length + 8) 0 ps
  if ps'.current.type == .eof then .ok ast
  else .error ("Unexpected token after expression: " ++ ps'.current.type.valueStr)

/-- Evaluation errors: the `ParseError` class (also raised for missing
fields) versus any other host exception (`TypeError` from an unsupported
ordering, ...), which the interpreter's handlers distinguish. -/
inductive EvalErr where
  | parseError (msg : String)
  | typeError (msg : String)
  deriving DecidableEq, Repr

/-- `str.split(sep)` for a single-character separator (no collapsing of
empty parts, as in Python). -/
def splitChar (sep : Char) : List Char → List (List Char)
  | [] => [[]]
  | c :: rest =>
      let r := splitChar sep rest
      if c == sep then [] :: r
      else
        match r with
        | h :: t => (c :: h) :: t
        | [] => [[c]]

/-- `get_field_value`: walk the dotted path through nested dicts; a
missing key or a non-dict intermediate raises
`ParseError "Field not found: <path>"`. -/
def get_field_value (case : J) (path : String) : Except EvalErr J :=
  go ((splitChar '.' path.data).map String.mk) case
where
  go : List String -> J -> Except EvalErr J
    | [], cur => .ok cur
    | p :: ps, cur =>
        match cur with
        | .obj kvs =>
            match lookupStr kvs p with
            | some v => go ps v
            | none => .error (.parseError ("Field not found: " ++ path))
        | _ => .error (.parseError ("Field not found: " ++ path))

/-- `ComparisonNode.eval` on already-evaluated operands (lines 225-252 of
`dsl_parser.py`): the three-valued null policy first, `==`/`!=` via host
equality, ordering via host ordering (raising `TypeError` where the host
would). -/
def compareVals (op : TokenType) (lv rv : J) : Except EvalErr J :=
  if lv = J.null || rv = J.null then
    match op with
    | .eq => .ok (.bool (lv == J.null && rv == J.null))
    | .ne => .ok (.bool (lv != J.null || rv != J.null))
    | _ => .ok (.bool false)
  else
    match op with
    | .eq => .ok (.bool (pyEq lv rv))
    | .ne => .ok (.bool (!pyEq lv rv))
    | .ge =>
        match pyCompare lv rv with
        | some o => .ok (.bool (o != Ordering.lt))
        | none => .error (.typeError ("'>=' not supported between operand types"))
    | .gt =>
        match pyCompare lv rv with
        | some o => .ok (.bool (o == Ordering.gt))
        | none => .error (.typeError ("'>' not supported between operand types"))
    | .le =>
        match pyCompare lv rv with
        | some o => .ok (.bool (o != Ordering.gt))
        | none => .error (.typeError ("'<=' not supported between operand types"))
    | .lt =>
        match pyCompare lv rv with
        | some o => .ok (.bool (o == Ordering.lt))
        | none => .error (.typeError ("'<' not supported between operand types"))
    | other => .error (.parseError ("Unknown comparison operator: " ++ other.valueStr))

/-- `ASTNode.eval`: literals evaluate to themselves, fields resolve
against the case, `not`/`and`/`or` coerce with truthiness (`and`/`or`
short-circuit as in Python), comparisons via `compareVals`. -/
def evalAST : ASTNode -> J -> Except EvalErr J
  | .booleanNode b, _ => .ok (.bool b)
  | .nullNode, _ => .ok .null
  | .numberNode v, _ => .ok v
  | .fieldNode path, case => get_field_value case path
  | .notNode e, case => do
      let v <- evalAST e case
      .ok (.bool (!pyTruthy v))
  | .andNode l r, case => do
      let lv <- evalAST l case
      if pyTruthy lv then do
        let rv <- evalAST r case
        .ok (.bool (pyTruthy rv))
      else .ok (.bool false)
  | .orNode l r, case => do
      let lv <- evalAST l case
      if pyTruthy lv then .ok (.bool true)
      else do
        let rv <- evalAST r case
        .ok (.bool (pyTruthy rv))
  | .comparisonNode l op r, case => do
      let lv <- evalAST l case
      let rv <- evalAST r case
      compareVals op lv rv

/-- `eval_expr`: parse and evaluate, coercing the result to a boolean. -/
def eval_expr (expr : String) (case : J) : Except EvalErr Bool :=
  match parse expr with
  | .error msg => .error (.parseError msg)
  | .ok ast =>
      match evalAST ast case with
      | .ok v => .ok (pyTruthy v)
      | .error e => .error e

end MedDSL

namespace MedDSL

/-! ## Canonicalization and hashing (`canonicalize_and_hash`)

`canonicalize_dict` recursively sorts every dict's keys; `json.dumps`
with `sort_keys=True` and compact separators serializes the result;
`hashlib.sha256` is modelled in full over the serialized ASCII bytes.
The only modelling liberty: Python renders a `float` with its shortest
round-trip decimal repr, while the exact rationals here render as
`num/den`; both are injective on the values they receive, and no claim
depends on the textual form of numbers. -/

/-- Python `<=` on strings (code-point lexicographic), as used by
`sorted` on dict keys. -/
def strLeb (s t : String) : Bool :=
  match cmpChars s.data t.data with
  | .gt => false
  | _ => true

/-- Stable insertion into a key-sorted association list. -/
def insertByKey (p : String × J) : List (String × J) → List (String × J)
  | [] => [p]
  | q :: rest =>
      if strLeb p.1 q.1 then p :: q :: rest else q :: insertByKey p rest

/-- `sorted(d.items())` on a dict: stable sort by key (keys of a real
Python dict are distinct, so the tuple comparison never reaches the
values). -/
def sortByKey : List (String × J) → List (String × J)
  | [] => []
  | p :: rest => insertByKey p (sortByKey rest)

theorem mem_insertByKey {q p : String × J} : ∀ {l}, q ∈ insertByKey p l ↔ q = p ∨ q ∈ l := by
  intro l
  induction l with
  | nil => simp [insertByKey]
  | cons r rest ih =>
    by_cases h : strLeb p.1 r.1 <;> simp [insertByKey, h, ih] <;> tauto

theorem mem_sortByKey {q : String × J} : ∀ {l}, q ∈ sortByKey l ↔ q ∈ l := by
  intro l
  induction l with
  | nil => simp [sortByKey]
  | cons p rest ih => simp [sortByKey, mem_insertByKey, ih]

/-- `canonicalize_dict`: recursively sort every mapping's keys, preserve
list order, leave scalars alone. -/
def canonicalize : J → J
  | .obj kvs => .obj ((sortByKey kvs).attach.map
      (fun kv => (kv.1.1, canonicalize kv.1.2)))
  | .list xs => .list (xs.attach.map (fun x => canonicalize x.1))
  | .null => .null
  | .bool b => .bool b
  | .int n => .int n
  | .real q => .real q
  | .str s => .str s
termination_by j => sizeOf j
decreasing_by
  · have h2 : kv.1 ∈ kvs := mem_sortByKey.mp kv.2
    have h3 := List.sizeOf_lt_of_mem h2
    have h4 : sizeOf kv.1.2 < sizeOf kv.1 := by
      obtain ⟨⟨k, v⟩, hm⟩ := kv
      simp
    simp only [J.obj.sizeOf_spec]
    omega
  · have := List.sizeOf_lt_of_mem x.2
    simp only [J.list.sizeOf_spec]
    omega

/-- Unfolding equation for `canonicalize` on dicts without `attach`. -/
theorem canonicalize_obj (kvs : List (String × J)) :
    canonicalize (.obj kvs)
      = .obj ((sortByKey kvs).map (fun kv => (kv.1, canonicalize kv.2))) := by
  rw [canonicalize]
  congr 1
  exact List.attach_map_coe (sortByKey kvs) (fun kv => (kv.1, canonicalize kv.2))

/-- Unfolding equation for `canonicalize` on lists without `attach`. -/
theorem canonicalize_list (xs : List J) :
    canonicalize (.list xs) = .list (xs.map canonicalize) := by
  rw [canonicalize]
  congr 1
  exact List.attach_map_coe xs canonicalize

/-- Lower-case hex digit. -/
def hexDigitChar (d : Nat) : Char := Char.ofNat (if d < 10 then 48 + d else 87 + d)

def hex4 (n : Nat) : List Char :=
  [hexDigitChar (n / 4096 % 16), hexDigitChar (n / 256 % 16),
   hexDigitChar (n / 16 % 16), hexDigitChar (n % 16)]

/-- `json.dumps` escaping of one character (`ensure_ascii=True`): short
escapes for the usual controls, `\uXXXX` (with surrogate pairs beyond the
BMP) for everything outside printable ASCII. -/
def escChar (c : Char) : List Char :=
  if c == '"' then ['\\', '"']
  else if c == '\\' then ['\\', '\\']
  else if c == '\n' then ['\\', 'n']
  else if c == '\r' then ['\\', 'r']
  else if c == '\t' then ['\\', 't']
  else if c.toNat == 8 then ['\\', 'b']
  else if c.toNat == 12 then ['\\', 'f']
  else if c.toNat < 32 || c.toNat > 126 then
    if c.toNat ≤ 65535 then '\\' :: 'u' :: hex4 c.toNat
    else
      let v := c.toNat - 65536
      ('\\' :: 'u' :: hex4 (55296 + v / 1024)) ++ ('\\' :: 'u' :: hex4 (56320 + v % 1024))
  else [c]

/-- A JSON string literal. -/
def dumpStr (s : String) : List Char :=
  '"' :: s.data.foldr (fun c acc => escChar c ++ acc) ['"']

/-- Comma-join serialized items. -/
def joinComma : List (List Char) → List Char
  | [] => []
  | [x] => x
  | x :: rest => x ++ ',' :: joinComma rest

/-- `json.dumps(..., sort_keys=True, separators=(',', ':'))`: compact
serialization with every dict's keys emitted in sorted order. -/
def jsonDump : J → List Char
  | .null => "null".data
  | .bool b => if b then "true".data else "false".data
  | .int n => (toString n).data
  | .real q => (toString q).data
  | .str s => dumpStr s
  | .list xs => '[' :: joinComma (xs.attach.map (fun x => jsonDump x.1)) ++ [']']
  | .obj kvs =>
      '\x7b' :: joinComma ((sortByKey kvs).attach.map
        (fun kv => dumpStr kv.1.1 ++ ':' :: jsonDump kv.1.2)) ++ ['\x7d']
termination_by j => sizeOf j
decreasing_by
  all_goals
    first
      | (have h1 := List.sizeOf_lt_of_mem x.2
         simp only [J.list.sizeOf_spec]
         omega)
      | (rename_i kvs
         have h2 : kv.1 ∈ kvs := mem_sortByKey.mp kv.2
         have h3 := List.sizeOf_lt_of_mem h2
         have h4 : sizeOf kv.1.2 < sizeOf kv.1 := by
           obtain ⟨⟨k, v⟩, hm⟩ := kv
           simp
         simp only [J.obj.sizeOf_spec]
         omega)

/-! ### SHA-256 (FIPS 180-4), as computed by `hashlib.sha256`, over `Nat`
with explicit wrapping at `2^32`. -/

def w32 (n : Nat) : Nat := n % 4294967296

def rotr32 (k n : Nat) : Nat := w32 ((n >>> k) ||| (n <<< (32 - k)))

def chN (x y z : Nat) : Nat := (x &&& y) ^^^ ((x ^^^ 4294967295) &&& z)

def majN (x y z : Nat) : Nat := (x &&& y) ^^^ (x &&& z) ^^^ (y &&& z)

def bsig0 (x : Nat) : Nat := rotr32 2 x ^^^ rotr32 13 x ^^^ rotr32 22 x

def bsig1 (x : Nat) : Nat := rotr32 6 x ^^^ rotr32 11 x ^^^ rotr32 25 x

def ssig0 (x : Nat) : Nat := rotr32 7 x ^^^ rotr32 18 x ^^^ (x >>> 3)

def ssig1 (x : Nat) : Nat := rotr32 17 x ^^^ rotr32 19 x ^^^ (x >>> 10)

/-- The 64 round constants. -/
def shaK : List Nat :=
  [1116352408, 1899447441, 3049323471, 3921009573,
   961987163, 1508970993, 2453635748, 2870763221,
   3624381080, 310598401, 607225278, 1426881987,
   1925078388, 2162078206, 2614888103, 3248222580,
   3835390401, 4022224774, 264347078, 604807628,
   770255983, 1249150122, 1555081692, 1996064986,
   2554220882, 2821834349, 2952996808, 3210313671,
   3336571891, 3584528711, 113926993, 338241895,
   666307205, 773529912, 1294757372, 1396182291,
   1695183700, 1986661051, 2177026350, 2456956037,
   2730485921, 2820302411, 3259730800, 3345764771,
   3516065817, 3600352804, 4094571909, 275423344,
   430227734, 506948616, 659060556, 883997877,
   958139571, 1322822218, 1537002063, 1747873779,
   1955562222, 2024104815, 2227730452, 2361852424,
   2428436474, 2756734187, 3204031479, 3329325298]

/-- The eight-word working state. -/
structure H8 where
  a : Nat
  b : Nat
  c : Nat
  d : Nat
  e : Nat
  f : Nat
  g : Nat
  h : Nat

def shaInit : H8 :=
  ⟨1779033703, 3144134277, 1013904242, 2773480762,
   1359893119, 2600822924, 528734635, 1541459225⟩

/-- Big-endian bytes to 32-bit words. -/
def toWordsBE : List Nat → List Nat
  | b0 :: b1 :: b2 :: b3 :: rest =>
      ((b0 <<< 24) ||| (b1 <<< 16) ||| (b2 <<< 8) ||| b3) :: toWordsBE rest
  | _ => []

/-- Message-schedule extension; `acc` holds the schedule so far in
reverse. -/
def extendSched : Nat → List Nat → List Nat
  | 0, acc => acc.reverse
  | k + 1, acc =>
      extendSched k
        (w32 (ssig1 (acc.getD 1 0) + acc.getD 6 0 + ssig0 (acc.getD 14 0) + acc.getD 15 0)
          :: acc)

/-- The 64 compression rounds, driven by the zipped (constant, schedule
word) list. -/
def shaRounds : List (Nat × Nat) → H8 → H8
  | [], st => st
  | (kt, wt) :: rest, st =>
      let t1 := w32 (st.h + bsig1 st.e + chN st.e st.f st.g + kt + wt)
      let t2 := w32 (bsig0 st.a + majN st.a st.b st.c)
      shaRounds rest ⟨w32 (t1 + t2), st.a, st.b, st.c, w32 (st.d + t1), st.e, st.f, st.g⟩

/-- Compress one 64-byte block into the running state. -/
def compressBlock (st : H8) (block : List Nat) : H8 :=
  let sched := extendSched 48 (toWordsBE block).reverse
  let r := shaRounds (shaK.zip sched) st
  ⟨w32 (st.a + r.a), w32 (st.b + r.b), w32 (st.c + r.c), w32 (st.d + r.d),
   w32 (st.e + r.e), w32 (st.f + r.f), w32 (st.g + r.g), w32 (st.h + r.h)⟩

/-- Big-endian 8-byte encoding of the bit length. -/
def be64 (n : Nat) : List Nat :=
  [n >>> 56 % 256, n >>> 48 % 256, n >>> 40 % 256, n >>> 32 % 256,
   n >>> 24 % 256, n >>> 16 % 256, n >>> 8 % 256, n % 256]

/-- SHA-256 padding: `0x80`, zeros to 56 mod 64, 64-bit bit length. -/
def shaPad (msg : List Nat) : List Nat :=
  let l := msg.length
  msg ++ 0x80 :: List.replicate ((64 + 56 - ((l + 1) % 64)) % 64) 0 ++ be64 (8 * l)

/-- Split into 64-byte chunks (fuelled by the list length, which amply
covers the chunk count). -/
def chunks64 : Nat → List Nat → List (List Nat)
  | 0, _ => []
  | _ + 1, [] => []
  | fuel + 1, bs => bs.take 64 :: chunks64 fuel (bs.drop 64)

def sha256Words (msg : List Nat) : H8 :=
  (chunks64 (msg.length + 9) (shaPad msg)).foldl compressBlock shaInit

/-- Eight lower-case hex digits of one word. -/
def hex8 (n : Nat) : List Char :=
  [hexDigitChar (n / 268435456 % 16), hexDigitChar (n / 16777216 % 16),
   hexDigitChar (n / 1048576 % 16), hexDigitChar (n / 65536 % 16),
   hexDigitChar (n / 4096 % 16), hexDigitChar (n / 256 % 16),
   hexDigitChar (n / 16 % 16), hexDigitChar (n % 16)]

/-- `hashlib.sha256(bytes).hexdigest()`. -/
def sha256hex (msg : List Nat) : String :=
  let st := sha256Words msg
  String.mk (hex8 st.a ++ hex8 st.b ++ hex8 st.c ++ hex8 st.d
    ++ hex8 st.e ++ hex8 st.f ++ hex8 st.g ++ hex8 st.h)

/-- `canonicalize_and_hash`: canonicalize, serialize compactly with
sorted keys, hash the UTF-8 bytes (the serialization is pure ASCII, so
the bytes are the character codes). -/
def canonicalize_and_hash (dsl : J) : String :=
  sha256hex ((jsonDump (canonicalize dsl)).map Char.toNat)

/-! ## The rule interpreter (`mddsl/interpreter.py`) -/

/-- A trace entry (the dictionary produced by `TraceEntry.to_dict`, with
keys `node`, `type`, `outcome`, `actions`, `cite`, `profile`, `version`,
`rule_hash`, `timestamp`).  `outcome` is `none` where Python stores
`None`. -/
structure TraceEntry where
  node : J
  type : J
  outcome : Option String := none
  actions : J := .list []
  cite : J := .list []
  profile : J := .str ""
  version : J := .str ""
  rule_hash : String := ""
  timestamp : String := ""
  deriving DecidableEq, Repr

/-- The fatal error channel of `execute`: `interp` is an
`InterpreterError`; `hostError` is any other exception that `execute`
does not catch (it would escape raw in Python, e.g. a `TypeError` from an
unhashable node id). -/
inductive ExecErr where
  | interp (msg : String)
  | hostError (msg : String)
  deriving DecidableEq, Repr

/-- `container[key]` with a string key: dicts may succeed; strings and
lists raise `TypeError`, and scalars too. -/
def getItemStr (container : J) (key : String) : Except ExecErr J :=
  match container with
  | .obj kvs =>
      match lookupStr kvs key with
      | some v => .ok v
      | none => .error (.hostError ("KeyError: " ++ key))
  | _ => .error (.hostError "TypeError: invalid subscript")

/-- `key in node` where the node is known to support `in` (used after the
containment test has already succeeded once on a dict). -/
def hasKey (node : J) (key : String) : Bool :=
  (pyContains node key).getD false

/-- `x or []` as applied by `TraceEntry.__init__` to `actions` and
`cite`. -/
def orEmptyList (v : J) : J :=
  if pyTruthy v then v else .list []

/-- `DSLInterpreter.validate_node_structure`. -/
def validate_node_structure (node : J) : Except ExecErr Unit := do
  match pyContains node "id" with
  | none => throw (.hostError "TypeError: argument is not iterable")
  | some b =>
    if !b then throw (.interp "Node missing required 'id' field")
    let nid ← getItemStr node "id"
    match pyContains node "type" with
    | none => throw (.hostError "TypeError: argument is not iterable")
    | some b2 =>
      if !b2 then
        throw (.interp ("Node " ++ pyFormat nid ++ " missing required 'type' field"))
      let ntype ← getItemStr node "type"
      if !(pyEq ntype (.str "decision") || pyEq ntype (.str "action")) then
        throw (.interp ("Node " ++ pyFormat nid ++ " has invalid type: " ++ pyFormat ntype))
      if pyEq ntype (.str "decision") then
        if !hasKey node "when" then
          throw (.interp ("Decision node " ++ pyFormat nid ++ " missing 'when' condition"))
        if hasKey node "actions" then
          throw (.interp ("Decision node " ++ pyFormat nid ++ " should not have 'actions' field"))
        return ()
      else
        if !hasKey node "actions" then
          throw (.interp ("Action node " ++ pyFormat nid ++ " missing 'actions' field"))
        if hasKey node "when" then
          throw (.interp ("Action node " ++ pyFormat nid ++ " should not have 'when' field"))
        return ()

/-- The validation loop of `execute` (structure check, duplicate-id check
via a set of ids). -/
def validateAll : List J → List J → Except ExecErr Unit
  | [], _ => .ok ()
  | node :: rest, seen => do
      validate_node_structure node
      let nid ← getItemStr node "id"
      if !pyHashable nid then throw (.hostError "TypeError: unhashable type")
      else if pyMem nid seen then
        throw (.interp ("Duplicate node ID: " ++ pyFormat nid))
      else validateAll rest (seen ++ [nid])

/-- `DSLInterpreter.get_node_by_id`: first node whose `id` compares equal
(all nodes are validated dicts when this runs). -/
def get_node_by_id (nodes : List J) (node_id : J) : Option J :=
  nodes.find? (fun node => pyEq ((dictGet node "id").getD .null) node_id)

/-- `DSLInterpreter.evaluate_condition`: evaluate the `when` expression,
mapping a `ParseError` and any other exception to the two
`InterpreterError` message forms of the source. -/
def evaluate_condition (condition : J) (case : J) : Except String Bool :=
  match condition with
  | .str s =>
      match eval_expr s case with
      | .ok b => .ok b
      | .error (.parseError m) =>
          .error ("Failed to evaluate condition '" ++ s ++ "': " ++ m)
      | .error (.typeError m) =>
          .error ("Unexpected error evaluating condition '" ++ s ++ "': " ++ m)
  | other =>
      .error ("Unexpected error evaluating condition '" ++ pyFormat other
        ++ "': condition is not a string")

/-- `DSLInterpreter.execute_node`: run one node, returning the raw
actions value, the chosen next-node reference, and the trace entry
(stamped with the given timestamp).  The only exception it can raise is
an `InterpreterError` from `evaluate_condition`. -/
def execute_node (profile version : J) (rule_hash : String) (stamp : String)
    (node : J) (case : J) : Except String (J × Option J × Option TraceEntry) :=
  let nid := (dictGet node "id").getD .null
  let ntype := (dictGet node "type").getD .null
  if pyEq ntype (.str "decision") then
    let condition := (dictGet node "when").getD .null
    match evaluate_condition condition case with
    | .error msg => .error msg
    | .ok outcome =>
        let entry : TraceEntry :=
          { node := nid, type := ntype
            outcome := some (if outcome then "true" else "false")
            actions := .list []
            cite := orEmptyList ((dictGet node "cite").getD (.list []))
            profile := profile, version := version
            rule_hash := rule_hash, timestamp := stamp }
        let next : Option J :=
          if outcome && hasKey node "goto_true" then dictGet node "goto_true"
          else if !outcome && hasKey node "goto_false" then dictGet node "goto_false"
          else if hasKey node "next" then dictGet node "next"
          else none
        .ok (.list [], next, some entry)
  else if pyEq ntype (.str "action") then
    let actions := (dictGet node "actions").getD (.list [])
    let entry : TraceEntry :=
      { node := nid, type := ntype
        outcome := none
        actions := orEmptyList actions
        cite := orEmptyList ((dictGet node "cite").getD (.list []))
        profile := profile, version := version
        rule_hash := rule_hash, timestamp := stamp }
    let next : Option J := if hasKey node "next" then dictGet node "next" else none
    .ok (actions, next, some entry)
  else
    .ok (.list [], none, none)

/-- `all_actions.extend(actions)`: lists extend element-wise; iterating a
string yields its characters and a dict its keys; any other value raises
`TypeError` (caught by the loop's catch-all handler). -/
def extendActions (acc : List J) (v : J) : Except String (List J) :=
  match v with
  | .list xs => .ok (acc ++ xs)
  | .str s => .ok (acc ++ s.data.map (fun c => J.str c.toString))
  | .obj kvs => .ok (acc ++ kvs.map (fun kv => J.str kv.1))
  | _ => .error "TypeError: object is not iterable"

/-- Context fixed for the whole traversal. -/
structure LoopCtx where
  nodes : List J
  case : J
  profile : J
  version : J
  rule_hash : String

/-- Mutable state of the traversal loop. -/
structure LoopState where
  all_actions : List J
  trace : List TraceEntry
  visited : List J
  tsIdx : Nat

/-- A SafetyStop trace entry. -/
def safetyEntry (ctx : LoopCtx) (outcome : String) (stamp : String) : TraceEntry :=
  { node := .str "safety_stop", type := .str "safety_stop"
    outcome := some outcome
    profile := ctx.profile, version := ctx.version
    rule_hash := ctx.rule_hash, timestamp := stamp }

/-- The `for iteration in range(100)` loop of `execute`.  Returns the
final state and the last value of the loop variable `iteration` (which
Python leaves holding the index of the last iteration that started). -/
def execLoop (ctx : LoopCtx) (ts : Nat → String) :
    Nat → Nat → Option J → LoopState → LoopState × Nat
  | 0, iter, _, st => (st, iter - 1)
  | fuel + 1, iter, currentNode, st =>
      match currentNode with
      | none => (st, iter)
      | some node =>
        let nid := (dictGet node "id").getD .null
        if pyMem nid st.visited then
          ({ st with
              trace := st.trace ++ [safetyEntry ctx "cycle_detected" (ts st.tsIdx)]
              tsIdx := st.tsIdx + 1 }, iter)
        else
          let st := { st with visited := st.visited ++ [nid] }
          match execute_node ctx.profile ctx.version ctx.rule_hash (ts st.tsIdx)
              node ctx.case with
          | .error msg =>
              ({ st with
                  trace := st.trace
                    ++ [safetyEntry ctx ("interpreter_error: " ++ msg) (ts st.tsIdx)]
                  tsIdx := st.tsIdx + 1 }, iter)
          | .ok (actions, nextRef, entry?) =>
              let tsIdx' := if entry?.isSome then st.tsIdx + 1 else st.tsIdx
              match extendActions st.all_actions actions with
              | .error emsg =>
                  -- the exception hits before `trace.append`, so the node's
                  -- own entry is lost and only the safety stop is recorded
                  ({ st with
                      trace := st.trace
                        ++ [safetyEntry ctx ("unexpected_error: " ++ emsg) (ts tsIdx')]
                      tsIdx := tsIdx' + 1 }, iter)
              | .ok acts' =>
                  let st := { st with
                      all_actions := acts'
                      trace := st.trace ++ (match entry? with
                        | some e => [e]
                        | none => [])
                      tsIdx := tsIdx' }
                  match nextRef with
                  | some nv =>
                      if pyTruthy nv then
                        match get_node_by_id ctx.nodes nv with
                        | some n' => execLoop ctx ts fuel (iter + 1) (some n') st
                        | none =>
                            ({ st with
                                trace := st.trace
                                  ++ [safetyEntry ctx "missing_node" (ts st.tsIdx)]
                                tsIdx := st.tsIdx + 1 }, iter)
                      else (st, iter)
                  | none => (st, iter)

/-- `container.get(key, default)`: a dict read with default; any other
receiver has no `get` attribute and raises `AttributeError`. -/
def getAttrDict (v : J) (key : String) (dflt : J) : Except ExecErr J :=
  match v with
  | .obj kvs => .ok ((lookupStr kvs key).getD dflt)
  | _ => .error (.hostError "AttributeError: no attribute get")

/-- `for node in nodes`: lists iterate element-wise, strings over their
characters, dicts over their keys; anything else raises `TypeError`. -/
def iterNodes (v : J) : Except ExecErr (List J) :=
  match v with
  | .list xs => .ok xs
  | .str s => .ok (s.data.map (fun c => J.str c.toString))
  | .obj kvs => .ok (kvs.map (fun kv => J.str kv.1))
  | _ => .error (.hostError "TypeError: object is not iterable")

/-- Entry resolution: `meta.entry` when present and truthy (raising
`InterpreterError` when it names no node), the first node otherwise. -/
def resolveEntry (metaObj : J) (nodes : List J) : Except ExecErr J :=
  match dictGet metaObj "entry" with
  | some ev =>
      if pyTruthy ev then
        match get_node_by_id nodes ev with
        | some n => .ok n
        | none => .error (.interp ("Entry node '" ++ pyFormat ev ++ "' not found"))
      else .ok (nodes.headD .null)
  | none => .ok (nodes.headD .null)

/-- The pre-flight part of `execute` (everything before the traversal
loop, none of which consults the clock): metadata extraction, hashing,
node validation, entry resolution.  Returns the loop context and the
entry node. -/
def preflight (dsl : J) (case : J) : Except ExecErr (LoopCtx × J) := do
  let metaObj ← getAttrDict dsl "meta" (.obj [])
  let profile ← getAttrDict metaObj "profile" (.str "")
  let version := (dictGet metaObj "version").getD (.str "")
  let rule_hash := canonicalize_and_hash dsl
  let nodesVal := (dictGet dsl "nodes").getD (.list [])
  if !pyTruthy nodesVal then throw (.interp "No nodes found in DSL")
  let nodes ← iterNodes nodesVal
  validateAll nodes []
  let current ← resolveEntry metaObj nodes
  return (⟨nodes, case, profile, version, rule_hash⟩, current)

/-- Pre-flight plus traversal, stopping short of the final max-iterations
check: returns the loop context, the final loop state and the last value
of `iteration`. -/
def executeRun (dsl : J) (case : J) (ts : Nat → String) :
    Except ExecErr (LoopCtx × LoopState × Nat) :=
  (preflight dsl case).map (fun pc =>
    (pc.1, execLoop pc.1 ts 100 0 (some pc.2) ⟨[], [], [], 0⟩))

/-- `execute(dsl, case)`: the public operation.  `ts` supplies the
timestamp strings (`datetime.now().isoformat()` of each call in order). -/
def execute (dsl : J) (case : J) (ts : Nat → String) :
    Except ExecErr (List J × List TraceEntry) := do
  let (ctx, st, lastIter) ← executeRun dsl case ts
  let st :=
    if lastIter ≥ 100 - 1 then
      { st with
          trace := st.trace
            ++ [safetyEntry ctx "max_iterations_exceeded" (ts st.tsIdx)]
          tsIdx := st.tsIdx + 1 }
    else st
  return (st.all_actions, st.trace)

/-- The number of loop iterations (node visits started) in a successful
run: one more than the final value of `iteration`. -/
def execVisits (dsl : J) (case : J) (ts : Nat → String) : Nat :=
  match executeRun dsl case ts with
  | .ok (_, _, lastIter) => lastIter + 1
  | .error _ => 0

/-! ## Claims -/

/-- A concrete timestamp oracle for counterexamples and witnesses. -/
def tsOracle : Nat → String := fun n => "T" ++ toString n

/-- Timestamp stripping for trace comparison. -/
def stripTs (e : TraceEntry) : TraceEntry := { e with timestamp := "" }

/-- C1.  The spec says a dotted field path lexes as a single IDENTIFIER
token whose value is the whole path, so that parsing yields one Field
node.  In the code `parse_identifier` stops at `.` (it only consumes
alphanumerics and underscores) and `next_token` emits a separate DOT
token, which the parser then rejects as trailing input: `qc.fundus_pass`
lexes as IDENTIFIER(`qc`), DOT, IDENTIFIER(`fundus_pass`) and fails to
parse.  This contradicts the repository's own tests
(`test_dotted_field_references`), so the code, not the claim, is wrong. -/
theorem c1_dotted_path_lexes_as_three_tokens :
    (tokenize "qc.fundus_pass").toOption.map (List.map Token.type)
        = some [.identifier, .dot, .identifier, .eof]
      ∧ (tokenize "qc.fundus_pass").toOption.map (List.map Token.value)
        = some [.str "qc", .null, .str "fundus_pass", .null]
      ∧ parse "qc.fundus_pass" = .error "Unexpected token after expression: ."
      ∧ eval_expr "qc.fundus_pass"
          (.obj [("qc", .obj [("fundus_pass", .bool true)])])
        = .error (.parseError "Unexpected token after expression: .") := by
  refine ⟨by decide, by decide, by decide, by decide⟩

/-- The rule set of `test_safety_stop_on_missing_entry_node`:
`meta.entry` names `nonexistent_node`, the only node is
`existing_node`. -/
def dslMissingEntry : J := .obj [
  ("meta", .obj [("profile", .str "test_profile"), ("version", .str "1.0.0"),
                 ("entry", .str "nonexistent_node")]),
  ("nodes", .list [.obj [("id", .str "existing_node"), ("type", .str "action"),
     ("actions", .list [.obj [("type", .str "suggest_referral"),
                              ("specialty", .str "retina"),
                              ("urgency", .str "urgent")]])]])]

/-- C2.  The spec says a missing entry node does not fail fatally but
yields a SafetyStop(`missing_node`) and a normal return.  The code
instead raises `InterpreterError("Entry node '...' not found")` during
pre-flight (interpreter.py line 215), so `execute` never returns a trace.
The repository's own test `test_safety_stop_on_missing_entry_node`
expects the non-raising behaviour, so the code, not the claim, is
wrong. -/
theorem c2_missing_entry_raises :
    execute dslMissingEntry (.obj [("age", .int 65)]) tsOracle
      = .error (.interp "Entry node 'nonexistent_node' not found") := by
  decide

/-- The i-th node of a linear chain of `n` action nodes (empty action
lists; the last node has no `next`). -/
def chainNode (i n : Nat) : J :=
  .obj ([("id", .str ("n" ++ toString i)), ("type", .str "action"),
         ("actions", .list [])]
    ++ (if i + 1 < n then [("next", .str ("n" ++ toString (i + 1)))] else []))

/-- A rule set consisting of a linear chain of `n` action nodes. -/
def mkChain (n : Nat) : J := .obj [
  ("meta", .obj [("entry", .str "n0")]),
  ("nodes", .list ((List.range n).map (fun i => chainNode i n)))]

set_option maxRecDepth 400000 in
/-- C3 counterexample.  A linear chain of exactly 100 action nodes halts
naturally at its 100th visit (the last node has no `next`), yet the trace
still ends with SafetyStop(`max_iterations_exceeded`): the code's
post-loop check `iteration >= max_iterations - 1` also fires when the
100th iteration ended in a natural halt.  This refutes the claim's
"halts naturally on or before its 100th visit ends without that
entry". -/
theorem c3_counterexample_natural_halt_at_100th_visit :
    (execute (mkChain 100) (.obj []) tsOracle).toOption.map
        (fun r => (r.1, r.2.map (fun e => e.outcome)))
      = some ([], List.replicate 100 none ++ [some "max_iterations_exceeded"]) := by
  decide

/-- C4 counterexample.  Evaluating the ordering comparison `x < y` where
both fields are strings returns the boolean `true` (host lexicographic
order), not an evaluation error; `x > y` likewise returns `false`.  This
refutes the claim that an ordering comparison between strings is a type
error that never produces a boolean result. -/
theorem c4_counterexample_string_ordering_returns_bool :
    eval_expr "x < y" (.obj [("x", .str "a"), ("y", .str "b")]) = .ok true
      ∧ eval_expr "x > y" (.obj [("x", .str "a"), ("y", .str "b")]) = .ok false := by
  refine ⟨by decide, by decide⟩

/-- C5.  The spec's lexer accepts single-quoted string literals, but
`Tokenizer.next_token` has no case for `'` and raises
`ParseError("Unexpected character: '")`; the expression
`dr_grade == 'severe_npdr'` therefore fails to lex.  The repository's own
test `test_comparison_operators` expects it to evaluate to `True`, so the
code, not the claim, is wrong. -/
theorem c5_string_literal_rejected :
    tokenize "dr_grade == 'severe_npdr'" = .error "Unexpected character: '"
      ∧ eval_expr "dr_grade == 'severe_npdr'"
          (.obj [("dr_grade", .str "severe_npdr")])
        = .error (.parseError "Unexpected character: '") := by
  refine ⟨by decide, by decide⟩

/-- The rule set for the C8 counterexample: no `meta` mapping at all, one
action node. -/
def dslNoMeta : J := .obj [
  ("nodes", .list [.obj [("id", .str "a"), ("type", .str "action"),
     ("actions", .list [.obj [("type", .str "abstain")]])]])]

/-- C8 counterexample.  When `meta` (and hence `meta.profile`) is absent,
`meta.get("profile", "")` yields the empty string and every trace entry
carries an empty `profile` (and `version`), refuting the claim that every
trace entry carries a non-empty `profile` and `version`. -/
theorem c8_counterexample_empty_profile :
    (execute dslNoMeta (.obj []) tsOracle).toOption.map
        (fun r => r.2.map (fun e => (e.profile, e.version)))
      = some [(.str "", .str "")] := by
  decide

/-- C4 amended.  Ordering comparisons between two string operands never
raise: `ComparisonNode.eval` hands them to the host, which orders strings
by code point, and a boolean comes back ( `<` and `>` test for the
corresponding comparison result, `<=` and `>=` for its complement). -/
theorem c4_string_ordering_uses_host_order (a b : String) :
    compareVals .lt (.str a) (.str b)
        = .ok (.bool (cmpChars a.data b.data == .lt))
      ∧ compareVals .le (.str a) (.str b)
        = .ok (.bool (cmpChars a.data b.data != .gt))
      ∧ compareVals .gt (.str a) (.str b)
        = .ok (.bool (cmpChars a.data b.data == .gt))
      ∧ compareVals .ge (.str a) (.str b)
        = .ok (.bool (cmpChars a.data b.data != .lt)) := by
  exact ⟨rfl, rfl, rfl, rfl⟩

/-- C9.  For a rule-set document (a dict whose `meta`, when present, is a
dict) whose `nodes` entry is absent or the empty list, `execute` raises
`InterpreterError("No nodes found in DSL")` during pre-flight: it neither
returns an `(actions, trace)` pair nor emits a SafetyStop. -/
theorem c9_empty_or_absent_nodes_raises (kvs : List (String × J)) (case : J)
    (ts : Nat → String)
    (hmeta : lookupStr kvs "meta" = none ∨ ∃ m, lookupStr kvs "meta" = some (.obj m))
    (hnodes : lookupStr kvs "nodes" = none ∨ lookupStr kvs "nodes" = some (.list [])) :
    execute (.obj kvs) case ts = .error (.interp "No nodes found in DSL") := by
  rcases hmeta with h | ⟨m, h⟩ <;> rcases hnodes with h2 | h2 <;>
    simp [execute, executeRun, preflight, getAttrDict, Except.map, dictGet, h, h2,
      pyTruthy, Except.bind, bind, throw, throwThe, MonadExceptOf.throw, pure,
      Except.pure]

/-- Witness for C9 at the empty document. -/
theorem c9_witness :
    (lookupStr ([] : List (String × J)) "meta" = none
        ∨ ∃ m, lookupStr ([] : List (String × J)) "meta" = some (.obj m))
      ∧ (lookupStr ([] : List (String × J)) "nodes" = none
        ∨ lookupStr ([] : List (String × J)) "nodes" = some (.list []))
      ∧ execute (.obj []) (.obj []) tsOracle
        = .error (.interp "No nodes found in DSL") :=
  ⟨Or.inl rfl, Or.inl rfl,
    c9_empty_or_absent_nodes_raises [] (.obj []) tsOracle (Or.inl rfl) (Or.inl rfl)⟩


/-- Loop states that agree on everything except trace timestamps. -/
def StEq (a b : LoopState) : Prop :=
  a.all_actions = b.all_actions ∧ a.visited = b.visited ∧ a.tsIdx = b.tsIdx ∧
    a.trace.map stripTs = b.trace.map stripTs

theorem stripTs_safetyEntry (ctx : LoopCtx) (o s : String) :
    stripTs (safetyEntry ctx o s) = safetyEntry ctx o "" := rfl

theorem execute_node_strip (p v : J) (rh s₁ s₂ : String) (node c : J) :
    (execute_node p v rh s₁ node c).map (fun r => (r.1, r.2.1, r.2.2.map stripTs))
      = (execute_node p v rh s₂ node c).map (fun r => (r.1, r.2.1, r.2.2.map stripTs)) := by
  unfold execute_node
  by_cases hd : pyEq ((dictGet node "type").getD J.null) (.str "decision") = true
  · simp only [hd, if_true]
    cases evaluate_condition ((dictGet node "when").getD J.null) c <;>
      simp [Except.map, stripTs]
  · by_cases hac : pyEq ((dictGet node "type").getD J.null) (.str "action") = true <;>
      simp [hd, hac, Except.map, stripTs]

theorem StEq_mk (A V : List J) (K : Nat) (T₁ T₂ : List TraceEntry)
    (h : T₁.map stripTs = T₂.map stripTs) :
    StEq ⟨A, T₁, V, K⟩ ⟨A, T₂, V, K⟩ :=
  ⟨rfl, rfl, rfl, h⟩

theorem execLoop_strip (ctx : LoopCtx) (ts₁ ts₂ : Nat → String) :
    ∀ fuel iter node st₁ st₂, StEq st₁ st₂ →
      StEq (execLoop ctx ts₁ fuel iter node st₁).1 (execLoop ctx ts₂ fuel iter node st₂).1
        ∧ (execLoop ctx ts₁ fuel iter node st₁).2 = (execLoop ctx ts₂ fuel iter node st₂).2 := by
  intro fuel
  induction fuel with
  | zero => intro iter node st₁ st₂ h; exact ⟨h, rfl⟩
  | succ f ih =>
    intro iter node st₁ st₂ h
    obtain ⟨A₁, T₁, V₁, K₁⟩ := st₁
    obtain ⟨A₂, T₂, V₂, K₂⟩ := st₂
    obtain ⟨ha, hv, ht, htr⟩ := h
    simp only at ha hv ht htr
    subst ha hv ht
    cases node with
    | none => exact ⟨StEq_mk _ _ _ _ _ htr, by trivial⟩
    | some nd =>
      simp only [execLoop]
      by_cases hcyc : pyMem ((dictGet nd "id").getD J.null) V₁ = true
      · simp only [hcyc, if_true]
        refine ⟨StEq_mk _ _ _ _ _ ?_, by trivial⟩
        simp [htr, stripTs_safetyEntry]
      · simp only [Bool.not_eq_true] at hcyc
        simp only [hcyc, Bool.false_eq_true, if_false]
        have hen := execute_node_strip ctx.profile ctx.version ctx.rule_hash
          (ts₁ K₁) (ts₂ K₁) nd ctx.case
        cases h₁ : execute_node ctx.profile ctx.version ctx.rule_hash (ts₁ K₁) nd ctx.case with
        | error m₁ =>
          cases h₂ : execute_node ctx.profile ctx.version ctx.rule_hash (ts₂ K₁) nd ctx.case with
          | error m₂ =>
            rw [h₁, h₂] at hen
            simp only [Except.map, Except.error.injEq] at hen
            subst hen
            refine ⟨StEq_mk _ _ _ _ _ ?_, by trivial⟩
            simp [htr, stripTs_safetyEntry]
          | ok r₂ => rw [h₁, h₂] at hen; simp [Except.map] at hen
        | ok r₁ =>
          cases h₂ : execute_node ctx.profile ctx.version ctx.rule_hash (ts₂ K₁) nd ctx.case with
          | error m₂ => rw [h₁, h₂] at hen; simp [Except.map] at hen
          | ok r₂ =>
            rw [h₁, h₂] at hen
            simp only [Except.map, Except.ok.injEq, Prod.mk.injEq] at hen
            obtain ⟨a₁, n₁, e₁⟩ := r₁
            obtain ⟨a₂, n₂, e₂⟩ := r₂
            obtain ⟨hact, hnext, hentry⟩ := hen
            simp only at hact hnext hentry
            subst hact hnext
            cases e₁ with
            | none =>
              cases e₂ with
              | some e => exact absurd hentry (by simp)
              | none =>
                simp only [Option.isSome_none, Bool.false_eq_true, if_false]
                cases hext : extendActions A₁ a₁ with
                | error em =>
                  refine ⟨StEq_mk _ _ _ _ _ ?_, by trivial⟩
                  simp [htr, stripTs_safetyEntry]
                | ok acts' =>
                  have htr' : (T₁ ++ ([] : List TraceEntry)).map stripTs
                      = (T₂ ++ ([] : List TraceEntry)).map stripTs := by simp [htr]
                  cases n₁ with
                  | none => exact ⟨StEq_mk _ _ _ _ _ htr', by trivial⟩
                  | some nv =>
                    by_cases htru : pyTruthy nv = true
                    · simp only [htru, if_true]
                      cases hfind : get_node_by_id ctx.nodes nv with
                      | some n' => exact ih (iter + 1) (some n') _ _ (StEq_mk _ _ _ _ _ htr')
                      | none =>
                        refine ⟨StEq_mk _ _ _ _ _ ?_, by trivial⟩
                        simp [htr, stripTs_safetyEntry]
                    · simp only [Bool.not_eq_true] at htru
                      simp only [htru, Bool.false_eq_true, if_false]
                      exact ⟨StEq_mk _ _ _ _ _ htr', by trivial⟩
            | some e =>
              cases e₂ with
              | none => exact absurd hentry (by simp)
              | some e' =>
                have hse : stripTs e = stripTs e' := by
                  simpa using hentry
                simp only [Option.isSome_some, if_true]
                cases hext : extendActions A₁ a₁ with
                | error em =>
                  refine ⟨StEq_mk _ _ _ _ _ ?_, by trivial⟩
                  simp [htr, stripTs_safetyEntry]
                | ok acts' =>
                  have htr' : (T₁ ++ [e]).map stripTs = (T₂ ++ [e']).map stripTs := by
                    simp [htr, hse]
                  cases n₁ with
                  | none => exact ⟨StEq_mk _ _ _ _ _ htr', by trivial⟩
                  | some nv =>
                    by_cases htru : pyTruthy nv = true
                    · simp only [htru, if_true]
                      cases hfind : get_node_by_id ctx.nodes nv with
                      | some n' => exact ih (iter + 1) (some n') _ _ (StEq_mk _ _ _ _ _ htr')
                      | none =>
                        refine ⟨StEq_mk _ _ _ _ _ ?_, by trivial⟩
                        simp [htr, hse, stripTs_safetyEntry]
                    · simp only [Bool.not_eq_true] at htru
                      simp only [htru, Bool.false_eq_true, if_false]
                      exact ⟨StEq_mk _ _ _ _ _ htr', by trivial⟩


/-- C6.  `execute` is deterministic: its result depends only on the rule
set and the case; two runs differing only in their timestamp oracles
return the same fatal error, or the same action list and traces that are
identical once every entry's timestamp is cleared. -/
theorem c6_determinism (dsl case : J) (ts₁ ts₂ : Nat → String) :
    (execute dsl case ts₁).map (fun r => (r.1, r.2.map stripTs))
      = (execute dsl case ts₂).map (fun r => (r.1, r.2.map stripTs)) := by
  unfold execute executeRun
  cases hpf : preflight dsl case with
  | error e => simp [hpf, Except.map, Except.bind, bind, pure, Except.pure]
  | ok pc =>
    obtain ⟨ctx, cur⟩ := pc
    obtain ⟨⟨ha, hv, ht, htr⟩, hiter⟩ :=
      execLoop_strip ctx ts₁ ts₂ 100 0 (some cur) ⟨[], [], [], 0⟩ ⟨[], [], [], 0⟩
        ⟨rfl, rfl, rfl, rfl⟩
    simp only [hpf, Except.map, Except.bind, bind, pure, Except.pure]
    rw [← hiter]
    by_cases hli : 100 - 1 ≤ (execLoop ctx ts₁ 100 0 (some cur) ⟨[], [], [], 0⟩).2
    · simp only [hli, if_true]
      simp [ha, ht, htr, stripTs_safetyEntry]
    · simp only [hli, if_false]
      simp [ha, htr]

end MedDSL

namespace MedDSL

theorem data_append (s t : String) : (s ++ t).data = s.data ++ t.data := rfl

/-- A safety-stop outcome tag emitted inside the traversal loop. -/
def SafetyOutcomeStr (o : String) : Prop :=
  o = "cycle_detected" ∨ o = "missing_node"
    ∨ (∃ m, o = "interpreter_error: " ++ m) ∨ (∃ m, o = "unexpected_error: " ++ m)

/-- Invariant satisfied by every trace entry the loop emits. -/
def EntryInv (ctx : LoopCtx) (ts : Nat → String) (e : TraceEntry) : Prop :=
  e.profile = ctx.profile ∧ e.version = ctx.version ∧ e.rule_hash = ctx.rule_hash
    ∧ (∃ k, e.timestamp = ts k)
    ∧ ((e.node = .str "safety_stop" ∧ e.type = .str "safety_stop"
          ∧ ∃ o, e.outcome = some o ∧ SafetyOutcomeStr o)
       ∨ (e.type = .str "decision"
          ∧ (e.outcome = some "true" ∨ e.outcome = some "false"))
       ∨ (e.type = .str "action" ∧ e.outcome = none))

theorem safetyEntry_inv (ctx : LoopCtx) (ts : Nat → String) (o : String) (k : Nat)
    (h : SafetyOutcomeStr o) : EntryInv ctx ts (safetyEntry ctx o (ts k)) :=
  ⟨rfl, rfl, rfl, ⟨k, rfl⟩, Or.inl ⟨rfl, rfl, o, rfl, h⟩⟩

theorem pyEq_str_right (v : J) (t : String) (h : pyEq v (.str t) = true) : v = .str t := by
  cases v <;> simp [pyEq] at h <;> simp [h]

/-- Shape of the entry produced by a successful `execute_node`. -/
theorem execute_node_entry_shape (p v : J) (rh s : String) (node c : J)
    (a : J) (n : Option J) (e : TraceEntry)
    (h : execute_node p v rh s node c = .ok (a, n, some e)) :
    e.profile = p ∧ e.version = v ∧ e.rule_hash = rh ∧ e.timestamp = s
      ∧ ((e.type = .str "decision"
            ∧ (e.outcome = some "true" ∨ e.outcome = some "false"))
         ∨ (e.type = .str "action" ∧ e.outcome = none)) := by
  unfold execute_node at h
  by_cases hd : pyEq ((dictGet node "type").getD J.null) (.str "decision") = true
  · simp only [hd, if_true] at h
    cases hev : evaluate_condition ((dictGet node "when").getD J.null) c with
    | error m => rw [hev] at h; exact absurd h (by simp)
    | ok outcome =>
      rw [hev] at h
      simp only [Except.ok.injEq, Prod.mk.injEq] at h
      obtain ⟨-, -, he⟩ := h
      obtain ⟨rfl⟩ := he
      refine ⟨rfl, rfl, rfl, rfl, Or.inl ⟨pyEq_str_right _ _ hd, ?_⟩⟩
      cases outcome <;> simp
  · simp only [hd, Bool.false_eq_true, if_false] at h
    by_cases hac : pyEq ((dictGet node "type").getD J.null) (.str "action") = true
    · simp only [hac, if_true] at h
      simp only [Except.ok.injEq, Prod.mk.injEq] at h
      obtain ⟨-, -, he⟩ := h
      obtain ⟨rfl⟩ := he
      exact ⟨rfl, rfl, rfl, rfl, Or.inr ⟨pyEq_str_right _ _ hac, rfl⟩⟩
    · simp only [hac, Bool.false_eq_true, if_false] at h
      simp at h

/-- Every entry in the loop's final trace satisfies the invariant. -/
theorem execLoop_inv (ctx : LoopCtx) (ts : Nat → String) :
    ∀ fuel iter node st,
      (∀ e ∈ st.trace, EntryInv ctx ts e) →
      ∀ e ∈ (execLoop ctx ts fuel iter node st).1.trace, EntryInv ctx ts e := by
  intro fuel
  induction fuel with
  | zero => intro iter node st h; exact h
  | succ f ih =>
    intro iter node st h
    cases node with
    | none => exact h
    | some nd =>
      simp only [execLoop]
      by_cases hcyc : pyMem ((dictGet nd "id").getD J.null) st.visited = true
      · simp only [hcyc, if_true]
        intro e he
        simp only [List.mem_append, List.mem_singleton] at he
        rcases he with he | rfl
        · exact h e he
        · exact safetyEntry_inv ctx ts _ _ (Or.inl rfl)
      · simp only [Bool.not_eq_true] at hcyc
        simp only [hcyc, Bool.false_eq_true, if_false]
        intro e he
        split at he
        · -- execute_node raised an InterpreterError
          rename_i msg heq
          simp only [List.mem_append, List.mem_singleton] at he
          rcases he with he | rfl
          · exact h e he
          · exact safetyEntry_inv ctx ts _ _ (Or.inr (Or.inr (Or.inl ⟨msg, rfl⟩)))
        · rename_i a n e? heq
          cases e? with
          | none =>
            split at he
            · rename_i emsg heq2
              simp only [List.mem_append, List.mem_singleton] at he
              rcases he with he | rfl
              · exact h e he
              · exact safetyEntry_inv ctx ts _ _ (Or.inr (Or.inr (Or.inr ⟨emsg, rfl⟩)))
            · rename_i acts' heq2
              split at he
              · rename_i nv
                split at he
                · split at he
                  · refine ih _ _ _ ?_ e he
                    intro x hx
                    simp only [List.mem_append] at hx
                    rcases hx with hx | hx
                    · exact h x hx
                    · simp at hx
                  · simp only [List.mem_append, List.mem_singleton] at he
                    rcases he with (he | he) | rfl
                    · exact h e he
                    · simp at he
                    · exact safetyEntry_inv ctx ts _ _ (Or.inr (Or.inl rfl))
                · simp only [List.mem_append] at he
                  rcases he with he | he
                  · exact h e he
                  · simp at he
              · simp only [List.mem_append] at he
                rcases he with he | he
                · exact h e he
                · simp at he
          | some en =>
            have hen : EntryInv ctx ts en := by
              obtain ⟨hp, hv, hr, hts, hshape⟩ :=
                execute_node_entry_shape _ _ _ _ _ _ _ _ _ heq
              exact ⟨hp, hv, hr, ⟨st.tsIdx, hts⟩, Or.inr hshape⟩
            split at he
            · rename_i emsg heq2
              simp only [List.mem_append, List.mem_singleton] at he
              rcases he with he | rfl
              · exact h e he
              · exact safetyEntry_inv ctx ts _ _ (Or.inr (Or.inr (Or.inr ⟨emsg, rfl⟩)))
            · rename_i acts' heq2
              split at he
              · rename_i nv
                split at he
                · split at he
                  · refine ih _ _ _ ?_ e he
                    intro x hx
                    simp only [List.mem_append, List.mem_singleton] at hx
                    rcases hx with hx | rfl
                    · exact h x hx
                    · exact hen
                  · simp only [List.mem_append, List.mem_singleton] at he
                    rcases he with (he | rfl) | rfl
                    · exact h e he
                    · exact hen
                    · exact safetyEntry_inv ctx ts _ _ (Or.inr (Or.inl rfl))
                · simp only [List.mem_append, List.mem_singleton] at he
                  rcases he with he | rfl
                  · exact h e he
                  · exact hen
              · simp only [List.mem_append, List.mem_singleton] at he
                rcases he with he | rfl
                · exact h e he
                · exact hen

end MedDSL

namespace MedDSL

/-- The hex digest of SHA-256 is never the empty string (it always has 64
characters). -/
theorem sha256hex_ne_empty (msg : List Nat) : sha256hex msg ≠ "" := by
  unfold sha256hex hex8
  intro h
  have h2 := congrArg String.data h
  simp [data_append] at h2

theorem canonicalize_and_hash_ne_empty (dsl : J) : canonicalize_and_hash dsl ≠ "" :=
  sha256hex_ne_empty _

/-- A string whose first character differs from `pre`'s first character is
not `pre ++ m` for any `m`. -/
theorem ne_append_of_head (s pre m : String) (c d : Char)
    (hs : s.data.head? = some c) (hp : pre.data.head? = some d) (hcd : c ≠ d) :
    s ≠ pre ++ m := by
  intro he
  have h2 : (pre ++ m).data.head? = some c := he ▸ hs
  rw [data_append] at h2
  cases hpd : pre.data with
  | nil => rw [hpd] at hp; simp at hp
  | cons x rest =>
    rw [hpd] at hp h2
    simp only [List.head?_cons, Option.some.injEq, List.cons_append] at hp h2
    exact hcd (h2 ▸ hp ▸ rfl)

theorem not_safety_true : ¬ SafetyOutcomeStr "true" := by
  rintro (h | h | ⟨m, h⟩ | ⟨m, h⟩)
  · exact absurd h (by decide)
  · exact absurd h (by decide)
  · exact ne_append_of_head "true" "interpreter_error: " m 't' 'i' rfl rfl (by decide) h
  · exact ne_append_of_head "true" "unexpected_error: " m 't' 'u' rfl rfl (by decide) h

theorem not_safety_false : ¬ SafetyOutcomeStr "false" := by
  rintro (h | h | ⟨m, h⟩ | ⟨m, h⟩)
  · exact absurd h (by decide)
  · exact absurd h (by decide)
  · exact ne_append_of_head "false" "interpreter_error: " m 'f' 'i' rfl rfl (by decide) h
  · exact ne_append_of_head "false" "unexpected_error: " m 'f' 'u' rfl rfl (by decide) h

theorem not_safety_maxiter : ¬ SafetyOutcomeStr "max_iterations_exceeded" := by
  rintro (h | h | ⟨m, h⟩ | ⟨m, h⟩)
  · exact absurd h (by decide)
  · exact absurd h (by decide)
  · exact ne_append_of_head "max_iterations_exceeded" "interpreter_error: " m 'm' 'i' rfl rfl (by decide) h
  · exact ne_append_of_head "max_iterations_exceeded" "unexpected_error: " m 'm' 'u' rfl rfl (by decide) h

/-- No entry produced inside the loop carries the `max_iterations_exceeded`
outcome. -/
theorem entryInv_outcome_ne_maxiter (ctx : LoopCtx) (ts : Nat → String)
    (e : TraceEntry) (h : EntryInv ctx ts e) :
    e.outcome ≠ some "max_iterations_exceeded" := by
  obtain ⟨-, -, -, -, hshape⟩ := h
  intro hc
  rcases hshape with ⟨-, -, o, ho, hs⟩ | ⟨-, ho | ho⟩ | ⟨-, ho⟩ <;> rw [ho] at hc
  · obtain rfl : o = "max_iterations_exceeded" := Option.some.inj hc
    exact not_safety_maxiter hs
  · exact absurd (Option.some.inj hc) (by decide)
  · exact absurd (Option.some.inj hc) (by decide)
  · simp at hc

/-- The last value of `iteration` is bounded by the fuel. -/
theorem execLoop_iter_le (ctx : LoopCtx) (ts : Nat → String) :
    ∀ fuel iter node st, (execLoop ctx ts fuel iter node st).2 ≤ iter + fuel - 1 := by
  intro fuel
  induction fuel with
  | zero => intro iter node st; simp [execLoop]
  | succ f ih =>
    intro iter node st
    cases node with
    | none => simp [execLoop]
    | some nd =>
      rw [execLoop]
      iterate 16
        all_goals
          first
            | (exact le_trans (ih _ _ _) (by omega))
            | (show iter ≤ iter + (f + 1) - 1
               omega)
            | split
            | dsimp only
            | skip

/-- Fields of the loop context assembled by a successful pre-flight. -/
theorem preflight_fields (dsl case : J) (ctx : LoopCtx) (cur : J)
    (h : preflight dsl case = .ok (ctx, cur)) :
    ctx.rule_hash = canonicalize_and_hash dsl
      ∧ ctx.profile
        = (dictGet ((dictGet dsl "meta").getD (.obj [])) "profile").getD (.str "")
      ∧ ctx.version
        = (dictGet ((dictGet dsl "meta").getD (.obj [])) "version").getD (.str "")
      ∧ ctx.case = case := by
  unfold preflight at h
  cases hm : getAttrDict dsl "meta" (.obj []) with
  | error e => rw [hm] at h; exact absurd h (by simp [bind, Except.bind])
  | ok metaObj =>
    rw [hm] at h
    simp only [bind, Except.bind] at h
    cases hp : getAttrDict metaObj "profile" (.str "") with
    | error e => rw [hp] at h; exact absurd h (by simp)
    | ok profile =>
      rw [hp] at h
      simp only [] at h
      split at h
      · exact absurd h (by simp [throw, throwThe, MonadExceptOf.throw, Except.bind])
      simp only [pure, Except.pure] at h
      cases hn : iterNodes ((dictGet dsl "nodes").getD (.list [])) with
      | error e => rw [hn] at h; exact absurd h (by simp [bind, Except.bind])
      | ok nodes =>
        rw [hn] at h
        simp only [bind, Except.bind] at h
        cases hva : validateAll nodes [] with
        | error e => rw [hva] at h; exact absurd h (by simp)
        | ok u =>
          rw [hva] at h
          simp only [] at h
          cases hre : resolveEntry metaObj nodes with
          | error e => rw [hre] at h; exact absurd h (by simp)
          | ok cur' =>
            rw [hre] at h
            simp only [pure, Except.pure, Except.ok.injEq, Prod.mk.injEq] at h
            obtain ⟨h1, -⟩ := h
            subst h1
            refine ⟨rfl, ?_, ?_, rfl⟩ <;>
              cases dsl <;> simp_all [getAttrDict, dictGet] <;>
              cases metaObj <;> simp_all [getAttrDict, dictGet]

end MedDSL

namespace MedDSL

theorem getLast?_mem {α : Type _} {l : List α} {a : α} (h : l.getLast? = some a) :
    a ∈ l := by
  obtain ⟨hne, rfl⟩ := List.mem_getLast?_eq_getLast (show a ∈ l.getLast? by simp [h])
  exact List.getLast_mem hne

/-- Any safety-stop outcome the interpreter can record, the post-loop
`max_iterations_exceeded` included. -/
def SafetyOutcomeAny (o : String) : Prop :=
  SafetyOutcomeStr o ∨ o = "max_iterations_exceeded"

theorem not_any_true : ¬ SafetyOutcomeAny "true" := by
  rintro (h | h)
  · exact not_safety_true h
  · exact absurd h (by decide)

theorem not_any_false : ¬ SafetyOutcomeAny "false" := by
  rintro (h | h)
  · exact not_safety_false h
  · exact absurd h (by decide)

/-- C8 amended.  When the rule set's `meta` carries non-empty string
`profile` and `version` fields (and the clock yields non-empty
timestamps, as `datetime.now().isoformat()` always does), every trace
entry of a completed execution carries exactly those non-empty `profile`
and `version` values, the non-empty canonical `rule_hash` of the rule
set — identical across all entries — and a non-empty timestamp.  (When
`meta.profile` or `meta.version` is absent the entries carry the empty
string instead: see the counterexample.) -/
theorem c8_trace_metadata (dsl case : J) (ts : Nat → String)
    (mkvs : List (String × J)) (p q : String)
    (hmeta : dictGet dsl "meta" = some (.obj mkvs))
    (hp : lookupStr mkvs "profile" = some (.str p)) (hp0 : p ≠ "")
    (hq : lookupStr mkvs "version" = some (.str q)) (hq0 : q ≠ "")
    (hts : ∀ n, ts n ≠ "") :
    match execute dsl case ts with
    | .ok r => ∀ e ∈ r.2,
        e.profile = .str p ∧ e.version = .str q
          ∧ e.rule_hash = canonicalize_and_hash dsl
          ∧ e.rule_hash ≠ "" ∧ e.timestamp ≠ ""
    | .error _ => True := by
  unfold execute executeRun
  cases hpf : preflight dsl case with
  | error e => simp [Except.map, Except.bind, bind]
  | ok pc =>
    obtain ⟨ctx, cur⟩ := pc
    obtain ⟨hrh, hprof, hver, -⟩ := preflight_fields dsl case ctx cur hpf
    have hprof' : ctx.profile = .str p := by
      rw [hprof, hmeta]
      simp [dictGet, hp]
    have hver' : ctx.version = .str q := by
      rw [hver, hmeta]
      simp [dictGet, hq]
    have hloop := execLoop_inv ctx ts 100 0 (some cur) ⟨[], [], [], 0⟩
      (by intro e he; simp at he)
    have hfin : ∀ e, EntryInv ctx ts e →
        e.profile = J.str p ∧ e.version = J.str q
          ∧ e.rule_hash = canonicalize_and_hash dsl
          ∧ e.rule_hash ≠ "" ∧ e.timestamp ≠ "" := by
      rintro e ⟨hpe, hve, hre, ⟨k, hte⟩, -⟩
      refine ⟨hpe.trans hprof', hve.trans hver', hre.trans hrh, ?_, ?_⟩
      · rw [hre, hrh]
        exact canonicalize_and_hash_ne_empty dsl
      · rw [hte]
        exact hts k
    simp only [hpf, Except.map, Except.bind, bind]
    intro e he
    split at he
    · simp only [List.mem_append, List.mem_singleton] at he
      rcases he with he | rfl
      · exact hfin e (hloop e he)
      · refine ⟨hprof', hver', hrh, ?_, hts _⟩
        show ctx.rule_hash ≠ ""
        rw [hrh]
        exact canonicalize_and_hash_ne_empty dsl
    · exact hfin e (hloop e he)

/-- C10.  Every trace entry whose outcome is a safety-stop tag
(`cycle_detected`, `missing_node`, `max_iterations_exceeded`, or an
`interpreter_error: ...` / `unexpected_error: ...` message) has both its
`node` and its `type` field equal to the literal string `safety_stop`;
the id of the node at which the failure occurred is never recorded
there. -/
theorem c10_safety_stop_node_and_kind (dsl case : J) (ts : Nat → String) :
    match execute dsl case ts with
    | .ok r => ∀ e ∈ r.2, ∀ o, e.outcome = some o → SafetyOutcomeAny o →
        e.node = .str "safety_stop" ∧ e.type = .str "safety_stop"
    | .error _ => True := by
  unfold execute executeRun
  cases hpf : preflight dsl case with
  | error e => simp [Except.map, Except.bind, bind]
  | ok pc =>
    obtain ⟨ctx, cur⟩ := pc
    have hloop := execLoop_inv ctx ts 100 0 (some cur) ⟨[], [], [], 0⟩
      (by intro e he; simp at he)
    have hfin : ∀ e, EntryInv ctx ts e → ∀ o, e.outcome = some o →
        SafetyOutcomeAny o →
        e.node = .str "safety_stop" ∧ e.type = .str "safety_stop" := by
      rintro e ⟨-, -, -, -, hshape⟩ o ho hso
      rcases hshape with ⟨hn, ht, o', ho', -⟩ | ⟨-, hoe | hoe⟩ | ⟨-, hoe⟩
      · exact ⟨hn, ht⟩
      · rw [hoe] at ho
        obtain rfl := Option.some.inj ho
        exact absurd hso not_any_true
      · rw [hoe] at ho
        obtain rfl := Option.some.inj ho
        exact absurd hso not_any_false
      · rw [hoe] at ho
        simp at ho
    simp only [hpf, Except.map, Except.bind, bind]
    intro e he o ho hso
    split at he
    · simp only [List.mem_append, List.mem_singleton] at he
      rcases he with he | rfl
      · exact hfin e (hloop e he) o ho hso
      · exact ⟨rfl, rfl⟩
    · exact hfin e (hloop e he) o ho hso

/-- C3 amended.  The SafetyStop(`max_iterations_exceeded`) entry is
appended (as the final trace entry) if and only if the traversal loop
runs all 100 iterations — i.e. the 100th node visit starts — whether or
not that 100th visit halts naturally; an execution that halts on or
before its 99th visit never receives the entry.  (The claim's
"an execution that halts naturally on or before its 100th visit ends
without that entry" fails at exactly 100 visits: see the
counterexample.) -/
theorem execVisits_eq (dsl case : J) (ts : Nat → String) (ctx : LoopCtx) (cur : J)
    (hpf : preflight dsl case = .ok (ctx, cur)) :
    execVisits dsl case ts
      = (execLoop ctx ts 100 0 (some cur) ⟨[], [], [], 0⟩).2 + 1 := by
  unfold execVisits executeRun
  rw [hpf]
  rfl

theorem c3_max_iterations_iff_100_visits (dsl case : J) (ts : Nat → String) :
    match execute dsl case ts with
    | .ok r => ((r.2.map TraceEntry.outcome).getLast?
          = some (some "max_iterations_exceeded"))
        ↔ execVisits dsl case ts = 100
    | .error _ => True := by
  unfold execute executeRun
  cases hpf : preflight dsl case with
  | error e =>
    rw [execVisits]    
    simp [executeRun, hpf, Except.map, Except.bind, bind]
  | ok pc =>
    obtain ⟨ctx, cur⟩ := pc
    have hloop := execLoop_inv ctx ts 100 0 (some cur) ⟨[], [], [], 0⟩
      (by intro e he; simp at he)
    have hle := execLoop_iter_le ctx ts 100 0 (some cur) ⟨[], [], [], 0⟩
    rw [execVisits_eq dsl case ts ctx cur hpf]
    simp only [hpf, Except.map, Except.bind, bind]
    by_cases hge : (execLoop ctx ts 100 0 (some cur) ⟨[], [], [], 0⟩).2 ≥ 100 - 1
    · rw [if_pos hge]
      constructor
      · intro _
        omega
      · intro _
        simp only [List.map_append, List.map_cons, List.map_nil]
        exact List.getLast?_concat _
    · rw [if_neg hge]
      constructor
      · intro hlast
        exfalso
        obtain ⟨e, he, hoe⟩ := List.mem_map.mp (getLast?_mem hlast)
        exact entryInv_outcome_ne_maxiter ctx ts e (hloop e he) hoe
      · intro h100
        omega

end MedDSL

namespace MedDSL

theorem char_toNat_inj (c d : Char) (h : c.toNat = d.toNat) : c = d := by
  have hv : c.val = d.val := by
    obtain ⟨⟨⟨a, ha⟩⟩, hc⟩ := c
    obtain ⟨⟨⟨b, hb⟩⟩, hd⟩ := d
    simp [Char.toNat, UInt32.toNat] at h
    subst h
    rfl
  exact Char.eq_of_val_eq hv

theorem cmpChars_eq_iff : ∀ (a b : List Char), cmpChars a b = .eq ↔ a = b := by
  intro a
  induction a with
  | nil => intro b; cases b <;> simp [cmpChars]
  | cons c cs ih =>
    intro b
    cases b with
    | nil => simp [cmpChars]
    | cons d ds =>
      simp only [cmpChars]
      by_cases h1 : c.toNat < d.toNat
      · simp only [h1, if_true]
        constructor
        · intro hc; exact absurd hc (by decide)
        · intro hc; cases hc; omega
      · by_cases h2 : d.toNat < c.toNat
        · simp only [h1, h2, if_false, if_true]
          constructor
          · intro hc; exact absurd hc (by decide)
          · intro hc; cases hc; omega
        · have hcd : c = d := char_toNat_inj c d (by omega)
          subst hcd
          simp only [h1, if_false]
          rw [ih ds]
          simp

theorem cmpChars_gt_iff : ∀ (a b : List Char), cmpChars a b = .gt ↔ cmpChars b a = .lt := by
  intro a
  induction a with
  | nil => intro b; cases b <;> simp [cmpChars]
  | cons c cs ih =>
    intro b
    cases b with
    | nil => simp [cmpChars]
    | cons d ds =>
      simp only [cmpChars]
      by_cases h1 : c.toNat < d.toNat
      · have h2 : ¬ d.toNat < c.toNat := by omega
        simp [h1, h2]
      · by_cases h2 : d.toNat < c.toNat
        · simp [h1, h2]
        · have hcd : c = d := char_toNat_inj c d (by omega)
          subst hcd
          simp [h1, ih ds]

theorem cmpChars_le_trans :
    ∀ (a b c : List Char), cmpChars a b ≠ .gt → cmpChars b c ≠ .gt →
      cmpChars a c ≠ .gt := by
  intro a
  induction a with
  | nil =>
    intro b c _ _
    cases c <;> simp [cmpChars]
  | cons x xs ih =>
    intro b c h1 h2
    cases b with
    | nil => simp [cmpChars] at h1
    | cons y ys =>
      cases c with
      | nil => simp [cmpChars] at h2
      | cons z zs =>
        simp only [cmpChars] at h1 h2 ⊢
        by_cases e1 : x.toNat < y.toNat
        · -- x strictly below y, and y is at or below z
          by_cases e2 : y.toNat < z.toNat
          · have : x.toNat < z.toNat := by omega
            simp [this]
          · by_cases e3 : z.toNat < y.toNat
            · simp [e2, e3] at h2
            · have : x.toNat < z.toNat := by omega
              simp [this]
        · by_cases e4 : y.toNat < x.toNat
          · simp [e1, e4] at h1
          · have hxy : x = y := char_toNat_inj x y (by omega)
            subst hxy
            simp only [e1, if_false] at h1 ⊢
            by_cases e2 : x.toNat < z.toNat
            · simp [e2]
            · by_cases e3 : z.toNat < x.toNat
              · simp [e2, e3] at h2
              · simp only [e2, e3, if_false] at h2 ⊢
                exact ih ys zs h1 h2

theorem strLeb_total (s t : String) : strLeb s t = true ∨ strLeb t s = true := by
  unfold strLeb
  cases h : cmpChars s.data t.data with
  | lt => simp
  | eq => simp
  | gt =>
    right
    rw [cmpChars_gt_iff] at h
    rw [h]

theorem strLeb_trans {a b c : String} (h1 : strLeb a b = true)
    (h2 : strLeb b c = true) : strLeb a c = true := by
  unfold strLeb at h1 h2 ⊢
  have g1 : cmpChars a.data b.data ≠ .gt := by
    intro hc; rw [hc] at h1; simp at h1
  have g2 : cmpChars b.data c.data ≠ .gt := by
    intro hc; rw [hc] at h2; simp at h2
  have := cmpChars_le_trans a.data b.data c.data g1 g2
  cases h : cmpChars a.data c.data with
  | lt => rfl
  | eq => rfl
  | gt => exact absurd h this

theorem strLeb_antisymm {a b : String} (h1 : strLeb a b = true)
    (h2 : strLeb b a = true) : a = b := by
  unfold strLeb at h1 h2
  have g1 : cmpChars a.data b.data ≠ .gt := by
    intro hc; rw [hc] at h1; simp at h1
  have g2 : cmpChars a.data b.data ≠ .lt := by
    intro hc
    rw [← cmpChars_gt_iff] at hc
    rw [hc] at h2; simp at h2
  have he : cmpChars a.data b.data = .eq := by
    cases h : cmpChars a.data b.data with
    | lt => exact absurd h g2
    | eq => rfl
    | gt => exact absurd h g1
  have h3 := cmpChars_eq_iff a.data b.data |>.mp he
  cases a with
  | mk da =>
    cases b with
    | mk db => exact congrArg String.mk (by simpa using h3)

/-- Key order on association-list entries. -/
def keyLe (a b : String × J) : Prop := strLeb a.1 b.1 = true

theorem insertByKey_sorted (p : String × J) :
    ∀ l, List.Pairwise keyLe l → List.Pairwise keyLe (insertByKey p l) := by
  intro l
  induction l with
  | nil => intro _; simp [insertByKey, List.Pairwise]
  | cons q rest ih =>
    intro h
    obtain ⟨hq, hrest⟩ := List.pairwise_cons.mp h
    by_cases hpq : strLeb p.1 q.1 = true
    · simp only [insertByKey, hpq, if_true]
      refine List.pairwise_cons.mpr ⟨?_, h⟩
      intro r hr
      rcases List.mem_cons.mp hr with rfl | hr
      · exact hpq
      · exact strLeb_trans hpq (hq r hr)
    · simp only [insertByKey, hpq, Bool.false_eq_true, if_false]
      refine List.pairwise_cons.mpr ⟨?_, ih hrest⟩
      intro r hr
      rcases mem_insertByKey.mp hr with rfl | hr
      · rcases strLeb_total r.1 q.1 with hc | hc
        · exact absurd hc hpq
        · exact hc
      · exact hq r hr

theorem sortByKey_sorted : ∀ l, List.Pairwise keyLe (sortByKey l) := by
  intro l
  induction l with
  | nil => simp [sortByKey, List.Pairwise]
  | cons p rest ih => exact insertByKey_sorted p _ ih

theorem insertByKey_perm (p : String × J) : ∀ l, (insertByKey p l).Perm (p :: l) := by
  intro l
  induction l with
  | nil => simp [insertByKey]
  | cons q rest ih =>
    by_cases hpq : strLeb p.1 q.1 = true
    · simp [insertByKey, hpq]
    · simp only [insertByKey, hpq, Bool.false_eq_true, if_false]
      exact (List.Perm.cons q ih).trans (List.Perm.swap p q rest)

theorem sortByKey_perm : ∀ l, (sortByKey l).Perm l := by
  intro l
  induction l with
  | nil => simp [sortByKey]
  | cons p rest ih =>
    exact (insertByKey_perm p _).trans (List.Perm.cons p ih)

/-- Two key-sorted association lists with the same entries and duplicate-free
keys are equal. -/
theorem sorted_nodup_perm_eq (l m : List (String × J)) (hperm : l.Perm m)
    (hs1 : List.Pairwise keyLe l) (hs2 : List.Pairwise keyLe m)
    (hnd : (l.map Prod.fst).Nodup) : l = m := by
  have hnd2 : (m.map Prod.fst).Nodup := ((hperm.map Prod.fst).nodup_iff).mp hnd
  have hp1 : List.Pairwise (fun a b : String × J => a.1 ≠ b.1) l :=
    (List.pairwise_map.mp hnd)
  have hp2 : List.Pairwise (fun a b : String × J => a.1 ≠ b.1) m :=
    (List.pairwise_map.mp hnd2)
  haveI : IsAntisymm (String × J) (fun a b => keyLe a b ∧ a.1 ≠ b.1) := by
    constructor
    intro a b h1 h2
    exact absurd (strLeb_antisymm h1.1 h2.1) h1.2
  exact List.eq_of_perm_of_sorted hperm (hs1.and hp1) (hs2.and hp2)

/-! ### Deep key permutation -/

mutual

/-- `DeepPerm a b`: `b` is `a` with the key/value pairs of each mapping
(at any depth) reordered.  Scalars must match exactly; list order is
preserved; for a mapping, the entries of `a` are first rewritten
value-wise and then permuted. -/
def DeepPerm : J → J → Prop
  | .null, .null => True
  | .bool a, .bool b => a = b
  | .int a, .int b => a = b
  | .real a, .real b => a = b
  | .str a, .str b => a = b
  | .list xs, .list ys => DeepPermL xs ys
  | .obj kvs, .obj kvs' => ∃ l, DeepPermO kvs l ∧ l.Perm kvs'
  | _, _ => False

/-- Pointwise `DeepPerm` on lists. -/
def DeepPermL : List J → List J → Prop
  | [], [] => True
  | x :: xs, y :: ys => DeepPerm x y ∧ DeepPermL xs ys
  | _, _ => False

/-- Pointwise key-preserving `DeepPerm` on mapping entries. -/
def DeepPermO : List (String × J) → List (String × J) → Prop
  | [], [] => True
  | (k, v) :: xs, (k', v') :: ys => k = k' ∧ DeepPerm v v' ∧ DeepPermO xs ys
  | _, _ => False

end

mutual

/-- Every mapping in the document has duplicate-free keys (true of any
document loaded from JSON/YAML, where mappings are Python dicts). -/
def NodupDeep : J → Prop
  | .list xs => NodupDeepL xs
  | .obj kvs => (kvs.map Prod.fst).Nodup ∧ NodupDeepO kvs
  | _ => True

/-- `NodupDeep` on every member of a list. -/
def NodupDeepL : List J → Prop
  | [] => True
  | x :: xs => NodupDeep x ∧ NodupDeepL xs

/-- `NodupDeep` on every value of a mapping. -/
def NodupDeepO : List (String × J) → Prop
  | [] => True
  | (_, v) :: xs => NodupDeep v ∧ NodupDeepO xs

end

theorem canonL_eq_of_deepPermL :
    ∀ xs : List J,
    (∀ x ∈ xs, NodupDeep x → ∀ b, DeepPerm x b → canonicalize x = canonicalize b) →
    NodupDeepL xs → ∀ ys, DeepPermL xs ys →
    xs.map canonicalize = ys.map canonicalize := by
  intro xs
  induction xs with
  | nil =>
    intro _ _ ys h
    cases ys with
    | nil => rfl
    | cons y r => exact False.elim h
  | cons x rest ihx =>
    intro ih hnd ys h
    cases ys with
    | nil => exact False.elim h
    | cons y r =>
      obtain ⟨h1, h2⟩ := h
      obtain ⟨hn1, hn2⟩ := hnd
      simp only [List.map_cons]
      rw [ih x (by simp) hn1 y h1,
        ihx (fun z hz => ih z (List.mem_cons_of_mem _ hz)) hn2 r h2]

theorem canonO_eq_of_deepPermO :
    ∀ kvs : List (String × J),
    (∀ kv ∈ kvs, NodupDeep kv.2 → ∀ b, DeepPerm kv.2 b →
      canonicalize kv.2 = canonicalize b) →
    NodupDeepO kvs → ∀ l, DeepPermO kvs l →
    kvs.map (fun kv => (kv.1, canonicalize kv.2))
      = l.map (fun kv => (kv.1, canonicalize kv.2)) := by
  intro kvs
  induction kvs with
  | nil =>
    intro _ _ l h
    cases l with
    | nil => rfl
    | cons q r => exact False.elim h
  | cons p rest ihp =>
    intro ih hnd l h
    cases l with
    | nil => obtain ⟨k, v⟩ := p; exact False.elim h
    | cons q r =>
      obtain ⟨k, v⟩ := p
      obtain ⟨k', v'⟩ := q
      obtain ⟨hk, hv, hrest⟩ := h
      obtain ⟨hn1, hn2⟩ := hnd
      simp only [List.map_cons]
      have he : canonicalize v = canonicalize v' :=
        ih (k, v) (by simp) hn1 v' hv
      rw [hk, he, ihp (fun z hz => ih z (List.mem_cons_of_mem _ hz)) hn2 r hrest]

theorem canon_eq_of_deepPerm :
    ∀ a, NodupDeep a → ∀ b, DeepPerm a b → canonicalize a = canonicalize b := by
  intro a
  induction a using J.inductOn with
  | hnull => intro _ b h; cases b <;> first | rfl | exact False.elim h
  | hbool x => intro _ b h
               cases b <;> first | exact (show x = _ from h) ▸ rfl | exact False.elim h
  | hint x => intro _ b h
              cases b <;> first | exact (show x = _ from h) ▸ rfl | exact False.elim h
  | hreal x => intro _ b h
               cases b <;> first | exact (show x = _ from h) ▸ rfl | exact False.elim h
  | hstr x => intro _ b h
              cases b <;> first | exact (show x = _ from h) ▸ rfl | exact False.elim h
  | hlist xs ih =>
    intro hnd b h
    cases b with
    | list ys =>
      rw [canonicalize_list, canonicalize_list]
      exact congrArg J.list (canonL_eq_of_deepPermL xs ih hnd ys h)
    | null => exact False.elim h
    | bool b => exact False.elim h
    | int n => exact False.elim h
    | real q => exact False.elim h
    | str s => exact False.elim h
    | obj kvs => exact False.elim h
  | hobj kvs ih =>
    intro hnd b h
    cases b with
    | obj kvs' =>
      obtain ⟨l, hpo, hperm⟩ := h
      obtain ⟨hkeys, hvals⟩ : (kvs.map Prod.fst).Nodup ∧ NodupDeepO kvs := hnd
      rw [canonicalize_obj, canonicalize_obj]
      congr 1
      have hmap := canonO_eq_of_deepPermO kvs ih hvals l hpo
      have hpermF : ((sortByKey kvs).map (fun kv => (kv.1, canonicalize kv.2))).Perm
          ((sortByKey kvs').map (fun kv => (kv.1, canonicalize kv.2))) := by
        refine ((sortByKey_perm kvs).map _).trans ?_
        rw [hmap]
        exact (hperm.map _).trans ((sortByKey_perm kvs').map _).symm
      have hs1 : List.Pairwise keyLe
          ((sortByKey kvs).map (fun kv => (kv.1, canonicalize kv.2))) :=
        List.pairwise_map.mpr (sortByKey_sorted kvs)
      have hs2 : List.Pairwise keyLe
          ((sortByKey kvs').map (fun kv => (kv.1, canonicalize kv.2))) :=
        List.pairwise_map.mpr (sortByKey_sorted kvs')
      have hndk : (((sortByKey kvs).map (fun kv => (kv.1, canonicalize kv.2))).map
          Prod.fst).Nodup := by
        have h1 : ((sortByKey kvs).map (fun kv => (kv.1, canonicalize kv.2))).map
            Prod.fst = (sortByKey kvs).map Prod.fst := by
          simp [List.map_map]
        rw [h1]
        exact (((sortByKey_perm kvs).map Prod.fst).nodup_iff).mpr hkeys
      exact sorted_nodup_perm_eq _ _ hpermF hs1 hs2 hndk
    | null => exact False.elim h
    | bool b => exact False.elim h
    | int n => exact False.elim h
    | real q => exact False.elim h
    | str s => exact False.elim h
    | list xs => exact False.elim h

/-- C7: the canonical hash is invariant under deep key reordering: for
every document with duplicate-free mapping keys (as any document built
from Python dicts is) and every deep key-permutation of it,
`canonicalize_and_hash` returns the same hex digest on both. -/
theorem c7_hash_invariant_under_key_reordering (a b : J)
    (hnd : NodupDeep a) (hp : DeepPerm a b) :
    canonicalize_and_hash a = canonicalize_and_hash b := by
  unfold canonicalize_and_hash
  rw [canon_eq_of_deepPerm a hnd b hp]

def c7Wa : J := .obj
  [("meta", .obj [("profile", .str "p1"), ("version", .str "1")]),
   ("nodes", .list [.obj [("id", .str "n1"), ("type", .str "action")]])]

def c7Wb : J := .obj
  [("nodes", .list [.obj [("type", .str "action"), ("id", .str "n1")]]),
   ("meta", .obj [("version", .str "1"), ("profile", .str "p1")])]

theorem c7_witness :
    NodupDeep c7Wa ∧ DeepPerm c7Wa c7Wb ∧
      canonicalize_and_hash c7Wa = canonicalize_and_hash c7Wb :=
  have hnd : NodupDeep c7Wa :=
    ⟨by decide, ⟨by decide, True.intro, True.intro, True.intro⟩,
      ⟨⟨by decide, True.intro, True.intro, True.intro⟩, True.intro⟩, True.intro⟩
  have hp : DeepPerm c7Wa c7Wb :=
    ⟨[("meta", .obj [("version", .str "1"), ("profile", .str "p1")]),
      ("nodes", .list [.obj [("type", .str "action"), ("id", .str "n1")]])],
      ⟨rfl,
        ⟨[("profile", .str "p1"), ("version", .str "1")],
          ⟨rfl, rfl, rfl, rfl, True.intro⟩, List.Perm.swap _ _ []⟩,
        rfl,
        ⟨⟨[("id", .str "n1"), ("type", .str "action")],
          ⟨rfl, rfl, rfl, rfl, True.intro⟩, List.Perm.swap _ _ []⟩, True.intro⟩,
        True.intro⟩,
      List.Perm.swap _ _ []⟩
  ⟨hnd, hp, c7_hash_invariant_under_key_reordering c7Wa c7Wb hnd hp⟩

def mkvsC8W : List (String × J) :=
  [("profile", .str "p1"), ("version", .str "1"), ("entry", .str "a1")]

def dslC8W : J := .obj
  [("meta", .obj mkvsC8W),
   ("nodes", .list [.obj [("id", .str "a1"), ("type", .str "action"),
     ("actions", .list [.obj [("type", .str "set_followup"),
       ("interval", .str "12m")]])]])]

theorem tsOracle_ne_empty (n : Nat) : tsOracle n ≠ "" := by
  intro h
  have hlen := congrArg String.length h
  simp [tsOracle, String.length_append] at hlen
  exact absurd hlen.1 (by decide)

theorem c8_witness :
    dictGet dslC8W "meta" = some (.obj mkvsC8W)
    ∧ lookupStr mkvsC8W "profile" = some (.str "p1") ∧ ("p1" : String) ≠ ""
    ∧ lookupStr mkvsC8W "version" = some (.str "1") ∧ ("1" : String) ≠ ""
    ∧ (∀ n, tsOracle n ≠ "")
    ∧ (match execute dslC8W (.obj []) tsOracle with
       | .ok r => ∀ e ∈ r.2,
           e.profile = .str "p1" ∧ e.version = .str "1"
             ∧ e.rule_hash = canonicalize_and_hash dslC8W
             ∧ e.rule_hash ≠ "" ∧ e.timestamp ≠ ""
       | .error _ => True) :=
  ⟨rfl, rfl, by decide, rfl, by decide, tsOracle_ne_empty,
    c8_trace_metadata dslC8W (.obj []) tsOracle mkvsC8W "p1" "1"
      rfl rfl (by decide) rfl (by decide) tsOracle_ne_empty⟩

end MedDSL
